import Mathlib

/-!
Verification development for the `ts-http-media-type-negotiator` repository.

Strings are modelled as `List Char`. The two character-driven state machines
(`parseMediaType` from `parseMediaType.ts`, `parseAcceptHeader` from
`parseAcceptHeader.ts`) are embedded as step functions over an explicit state
record, folded over the input characters followed by one virtual end-of-input
symbol (`none`), exactly as the source loops run `pos` from `0` to
`input.length` inclusive with `input[input.length] === undefined`.

Positions and `slice` calls of the source are rendered as accumulator lists:
`cur` holds `input.slice(s, pos)` for the capture currently in progress, and
the accept-header scanner's `acc` holds `accept.slice(s, pos)` for the entry
in progress, with `teLen`/`peLen` holding `te - s` / `pe - s`.
-/

namespace MediaTypeNegotiator

/-- Modelled from the spec: the repository's `constants.ts` (defining the
`TOKEN` and `OWS` character sets) is not part of the provided sources; the
spec describes the classifiers as "is this character a grammar token
character" / "is this character optional whitespace" per RFC 9110 §5.6.2
(`tchar`: letters, digits and a fixed set of symbols) and §5.6.3 (`OWS`:
space and horizontal tab). -/
def TOKEN : List Char :=
  ("!#$%&'*+-.^_`|~" ++ "0123456789"
    ++ "abcdefghijklmnopqrstuvwxyz" ++ "ABCDEFGHIJKLMNOPQRSTUVWXYZ").toList

/-- Modelled from the spec: optional whitespace is space or horizontal tab
(RFC 9110 §5.6.3). -/
def OWS : List Char := [' ', '\t']

/-- `utils.ts` `isToken`: membership of a character in the `token` set. -/
def isToken (c : Char) : Bool := TOKEN.contains c

/-- `utils.ts` `isOWS`: membership of a character in the `OWS` set. -/
def isOWS (c : Char) : Bool := OWS.contains c

/-- `isToken` lifted to the scanner's character-or-end-of-input symbol;
in the source `isToken(undefined)` is `false` (a set lookup misses). -/
def isTokenO : Option Char → Bool
  | some c => isToken c
  | none => false

/-- `isOWS` lifted to the scanner's character-or-end-of-input symbol. -/
def isOWSO : Option Char → Bool
  | some c => isOWS c
  | none => false

/-- The shared state set of both scanners (the `STATE_*` constants). -/
inductive TState where
  | invalid
  | initial
  | typ
  | subtypeStart
  | subtype
  | subtypeEnd
  | paramsStart
  | parameterName
  | parameterNameEnd
  | parameterValueStart
  | parameterValue
  | parameterQuoted
deriving DecidableEq, Repr

/-- The parsed media type: `[type + '/' + subtype, params]` with the
`.type`/`.subtype` accessors of `TMediaType`. -/
structure MediaType where
  type : List Char
  subtype : List Char
  params : List (List Char × List Char)
deriving DecidableEq, Repr, Inhabited

/-- Element `0` of the `TMediaType` tuple: `type + '/' + subtype`. -/
def mimeOf (m : MediaType) : List Char := m.type ++ '/' :: m.subtype

/-- `String.prototype.replace(/\\(.)/g, (_, c) => c)`: drop each backslash
that precedes a character (non-overlapping, left to right). -/
def unescape : List Char → List Char
  | [] => []
  | '\\' :: c :: rest => c :: unescape rest
  | c :: rest => c :: unescape rest

/-- Scanner state of `parseMediaType`: the machine state plus the captured
`type`/`subtype`, the accumulated `params`, the pending capture `cur`
(`mediaType.slice(s, pos)`) and the pending parameter name `t`. -/
structure PSt where
  state : TState
  type? : Option (List Char)
  subtype? : Option (List Char)
  params : List (List Char × List Char)
  cur : List Char
  t : List Char
deriving DecidableEq, Repr

/-- One transition of the `parseMediaType` state machine (the `switch` of
`parseMediaType.ts`), on one character or the end-of-input symbol `none`.
In the quoted-value state the source tests `mediaType[pos - 1] === '\\'`;
that previous character is the last of `cur` when `cur` is nonempty and the
opening quote itself otherwise, so the test is `cur.getLast? = some '\\'`. -/
def pmtStep (permissive : Bool) (st : PSt) (chr : Option Char) : PSt :=
  match st.state with
  | .initial =>
      if isTokenO chr then { st with state := .typ, cur := chr.toList }
      else if isOWSO chr then st
      else { st with state := .invalid }
  | .typ =>
      if isTokenO chr then { st with cur := st.cur ++ chr.toList }
      else if chr = some '/' then { st with state := .subtypeStart, type? := some st.cur }
      else { st with state := .invalid }
  | .subtypeStart =>
      if isTokenO chr then { st with state := .subtype, cur := chr.toList }
      else if permissive ∧ isOWSO chr then st
      else { st with state := .invalid }
  | .subtype =>
      if isTokenO chr then { st with cur := st.cur ++ chr.toList }
      else if chr = some ';' ∨ chr = none then
        { st with state := .paramsStart, subtype? := some st.cur }
      else if isOWSO chr then { st with state := .subtypeEnd, subtype? := some st.cur }
      else { st with state := .invalid }
  | .subtypeEnd =>
      if chr = some ';' ∨ chr = none then { st with state := .paramsStart }
      else if isOWSO chr then st
      else { st with state := .invalid }
  | .paramsStart =>
      if isTokenO chr then { st with state := .parameterName, cur := chr.toList }
      else if isOWSO chr ∨ chr = some ';' ∨ chr = none then st
      else { st with state := .invalid }
  | .parameterName =>
      if isTokenO chr then { st with cur := st.cur ++ chr.toList }
      else if chr = some '=' then { st with state := .parameterValueStart, t := st.cur }
      else if permissive ∧ isOWSO chr then { st with state := .parameterNameEnd, t := st.cur }
      else if permissive ∧ (chr = some ';' ∨ chr = none) then
        { st with state := .paramsStart, params := st.params ++ [(st.cur, [])] }
      else { st with state := .invalid }
  | .parameterNameEnd =>
      if isOWSO chr then st
      else if chr = some ';' ∨ chr = none then
        { st with state := .paramsStart, params := st.params ++ [(st.t, [])] }
      else if chr = some '=' then { st with state := .parameterValueStart }
      else st
  | .parameterValueStart =>
      if isTokenO chr then { st with state := .parameterValue, cur := chr.toList }
      else if chr = some '"' then { st with state := .parameterQuoted, cur := [] }
      else if permissive ∧ isOWSO chr then st
      else if permissive ∧ (chr = some ';' ∨ chr = none) then
        { st with state := .paramsStart, params := st.params ++ [(st.t, [])] }
      else { st with state := .invalid }
  | .parameterValue =>
      if isTokenO chr then { st with cur := st.cur ++ chr.toList }
      else if chr = some ';' ∨ chr = none then
        { st with state := .paramsStart, params := st.params ++ [(st.t, st.cur)] }
      else if isOWSO chr then
        { st with state := .subtypeEnd, params := st.params ++ [(st.t, st.cur)] }
      else { st with state := .invalid }
  | .parameterQuoted =>
      if ¬(permissive ∧ chr = none)
          ∧ (chr ≠ some '"' ∨ st.cur.getLast? = some '\\') then
        { st with cur := st.cur ++ chr.toList }
      else
        { st with state := .subtypeEnd, params := st.params ++ [(st.t, unescape st.cur)] }
  | .invalid => st

/-- The scanner's start state. -/
def pmtInit : PSt := ⟨.initial, none, none, [], [], []⟩

/-- Fold the `parseMediaType` scanner over the input characters. Once the
state is `invalid` the source sets `pos = Infinity`, which ends the loop;
`pmtStep` is the identity on `invalid`, so folding over the remaining
characters is equivalent. -/
def pmtFold (permissive : Bool) (st : PSt) : List Char → PSt
  | [] => st
  | c :: rest => pmtFold permissive (pmtStep permissive st (some c)) rest

/-- The scanner state after the whole input plus the virtual end-of-input
character (`pos = mediaType.length`, `chr = undefined`). -/
def pmtFinal (permissive : Bool) (s : List Char) : PSt :=
  pmtStep permissive (pmtFold permissive pmtInit s) none

/-- `parseMediaType(mediaType, permissive)`: `none` models a thrown
`MediaTypeParsingError('Invalid input')`. The source's strict-mode extra
condition `pos !== mediaType.length + 1` holds exactly when the scan entered
the `invalid` state, which already fails the final-state test
(`state !== STATE_SUBTYPE_END && state !== STATE_PARAMS_START`), so the
acceptance condition below is the full check. -/
def parseMediaType (s : List Char) (permissive : Bool) : Option MediaType :=
  let fin := pmtFinal permissive s
  match fin.type?, fin.subtype? with
  | some ty, some sub =>
      if ty ≠ [] ∧ sub ≠ [] ∧ (fin.state = .subtypeEnd ∨ fin.state = .paramsStart)
      then some ⟨ty, sub, fin.params⟩ else none
  | _, _ => none

/-- Scanner state of `parseAcceptHeader`: machine state, the current entry
span `acc` (`accept.slice(s, pos)`), the marks `teLen = te - s` and
`peLen = pe - s`, and the emitted entries `types`. -/
structure ASt where
  state : TState
  acc : List Char
  teLen : Nat
  peLen : Nat
  types : List (List Char)
deriving DecidableEq, Repr

/-- The source's `reset()`: emit `accept.slice(s, typesOnly ? te : pe)` and
return to the initial state. -/
def ASt.reset (typesOnly : Bool) (st : ASt) : ASt :=
  { st with
    state := .initial
    types := st.types ++ [st.acc.take (if typesOnly then st.teLen else st.peLen)] }

/-- One transition of the `parseAcceptHeader` state machine (the `switch` of
`parseAcceptHeader.ts`). `acc` advances by the consumed character in every
branch except that entering the type state afresh restarts the span
(`s = pos`). Assignments `te/pe = pos` become lengths of `acc` before the
advance; `pe = pos + 1` becomes `acc.length + 1`. As in `pmtStep`, the
quoted-value test `accept[pos - 1] === '\\'` reads the last character of the
current span. -/
def tokStep (typesOnly permissive : Bool) (st : ASt) (chr : Option Char) : ASt :=
  let adv : List Char := st.acc ++ chr.toList
  match st.state with
  | .initial =>
      if isOWSO chr ∨ chr = some ',' then { st with acc := adv }
      else if isTokenO chr then { st with state := .typ, acc := chr.toList }
      else { st with state := .invalid, acc := adv }
  | .typ =>
      if isTokenO chr then { st with acc := adv }
      else if chr = some '/' then { st with state := .subtypeStart, acc := adv }
      else if chr = some ',' then { st with state := .initial, acc := adv }
      else { st with state := .invalid, acc := adv }
  | .subtypeStart =>
      if isTokenO chr then { st with state := .subtype, acc := adv }
      else if permissive ∧ isOWSO chr then { st with acc := adv }
      else if chr = some ',' then { st with state := .initial, acc := adv }
      else { st with state := .invalid, acc := adv }
  | .subtype =>
      if isTokenO chr then { st with acc := adv }
      else if chr = some ',' ∨ chr = none then
        { ASt.reset typesOnly
            { st with teLen := st.acc.length, peLen := st.acc.length } with acc := adv }
      else if chr = some ';' then
        { st with
          state := .paramsStart
          teLen := st.acc.length
          peLen := st.acc.length
          acc := adv }
      else if isOWSO chr then
        { st with
          state := .subtypeEnd
          teLen := st.acc.length
          peLen := st.acc.length
          acc := adv }
      else { st with state := .invalid, acc := adv }
  | .subtypeEnd =>
      if chr = some ',' ∨ chr = none then { ASt.reset typesOnly st with acc := adv }
      else if chr = some ';' then { st with state := .paramsStart, acc := adv }
      else if isOWSO chr then { st with acc := adv }
      else { st with state := .invalid, acc := adv }
  | .paramsStart =>
      if isTokenO chr then { st with state := .parameterName, acc := adv }
      else if isOWSO chr ∨ chr = some ';' then { st with acc := adv }
      else if chr = some ',' ∨ chr = none then { ASt.reset typesOnly st with acc := adv }
      else { st with state := .invalid, acc := adv }
  | .parameterName =>
      if isTokenO chr then { st with acc := adv }
      else if chr = some '=' then { st with state := .parameterValueStart, acc := adv }
      else if permissive ∧ isOWSO chr then
        { st with state := .parameterNameEnd, peLen := st.acc.length, acc := adv }
      else if permissive ∧ chr = some ';' then { st with state := .paramsStart, acc := adv }
      else if permissive ∧ (chr = some ',' ∨ chr = none) then
        { ASt.reset typesOnly st with acc := adv }
      else { st with state := .invalid, acc := adv }
  | .parameterNameEnd =>
      if isOWSO chr then { st with acc := adv }
      else if chr = some ';' then { st with state := .paramsStart, acc := adv }
      else if chr = some '=' then
        { st with
          state := .parameterValueStart
          peLen := if permissive then st.acc.length + 1 else st.peLen
          acc := adv }
      else if chr = some ',' ∨ chr = none then { ASt.reset typesOnly st with acc := adv }
      else { st with acc := adv }
  | .parameterValueStart =>
      if isTokenO chr then { st with state := .parameterValue, acc := adv }
      else if chr = some '"' then { st with state := .parameterQuoted, acc := adv }
      else if permissive ∧ isOWSO chr then { st with acc := adv }
      else if permissive ∧ chr = some ';' then { st with state := .paramsStart, acc := adv }
      else if permissive ∧ (chr = some ',' ∨ chr = none) then
        { ASt.reset typesOnly { st with peLen := st.acc.length } with acc := adv }
      else { st with state := .invalid, acc := adv }
  | .parameterValue =>
      if isTokenO chr then { st with acc := adv }
      else if chr = some ';' then
        { st with state := .paramsStart, peLen := st.acc.length, acc := adv }
      else if chr = some ',' ∨ chr = none then
        { ASt.reset typesOnly { st with peLen := st.acc.length } with acc := adv }
      else if isOWSO chr then
        { st with state := .subtypeEnd, peLen := st.acc.length, acc := adv }
      else { st with state := .invalid, acc := adv }
  | .parameterQuoted =>
      if permissive ∧ chr = none then
        { ASt.reset typesOnly { st with peLen := st.acc.length } with acc := adv }
      else if chr ≠ some '"' ∨ st.acc.getLast? = some '\\' then
        { st with acc := adv }
      else { st with state := .subtypeEnd, peLen := st.acc.length + 1, acc := adv }
  | .invalid =>
      if chr = some ',' then { st with state := .initial, acc := adv }
      else { st with acc := adv }

/-- The accept-header scanner's start state. -/
def tokInit : ASt := ⟨.initial, [], 0, 0, []⟩

/-- Fold the accept-header scanner over the input characters. -/
def tokFold (typesOnly permissive : Bool) (st : ASt) : List Char → ASt
  | [] => st
  | c :: rest => tokFold typesOnly permissive (tokStep typesOnly permissive st (some c)) rest

/-- The scanner state after the whole input plus the virtual end-of-input
character. -/
def tokFinal (typesOnly permissive : Bool) (accept : List Char) : ASt :=
  tokStep typesOnly permissive (tokFold typesOnly permissive tokInit accept) none

/-- `parseAcceptHeader(accept, typesOnly, permissive)`: the emitted
media-range substrings, in scan order. -/
def parseAcceptHeader (accept : List Char) (typesOnly permissive : Bool) :
    List (List Char) :=
  (tokFinal typesOnly permissive accept).types

example :
    parseMediaType "text/plain; charset=utf-8".toList false
      = some ⟨"text".toList, "plain".toList, [("charset".toList, "utf-8".toList)]⟩ := by
  decide

example : parseMediaType "text/".toList true = none := by decide

example :
    parseAcceptHeader "text/html, application/json".toList false false
      = ["text/html".toList, "application/json".toList] := by decide

/-- Stable insertion sort with a JavaScript-style three-way comparator.
`Array.prototype.sort` is stable (ECMA-262), and for the consistent
comparators used in this module every stable sort computes the same list:
an element moves before another exactly when the comparator is negative. -/
def sInsert (cmp : α → α → Int) (x : α) : List α → List α
  | [] => [x]
  | y :: ys => if cmp x y < 0 then x :: y :: ys else y :: sInsert cmp x ys

/-- Stable sort: insert each element, in order, into the sorted prefix. -/
def sortJS (cmp : α → α → Int) (l : List α) : List α :=
  l.foldl (fun acc x => sInsert cmp x acc) []

/-- The JavaScript string comparison `a > b ? 1 : a < b ? -1 : 0`
(lexicographic by code unit; the compared strings here are ASCII token
runs, for which `Char.val` order coincides with code-unit order). -/
def lexCmp : List Char → List Char → Int
  | [], [] => 0
  | [], _ :: _ => -1
  | _ :: _, [] => 1
  | a :: as, b :: bs =>
      if a.val < b.val then -1 else if b.val < a.val then 1 else lexCmp as bs

/-- `normaliseMediaType.ts`: lowercase the type and subtype, lowercase the
parameter names (values untouched) and sort the parameters by name with the
comparator `a[0] > b[0] ? 1 : a[0] < b[0] ? -1 : 0`. The `original`
back-reference of `TNormalisedMediaType` is not modelled: the negotiation
engine never reads it (originals are recovered through `mapToOriginal`,
modelled below by index pairing). `String.prototype.toLowerCase` agrees with
`Char.toLower` on the ASCII token runs produced by the parser. -/
def normaliseMediaType (m : MediaType) : MediaType :=
  { type := m.type.map Char.toLower
    subtype := m.subtype.map Char.toLower
    params := sortJS (fun a b => lexCmp a.1 b.1)
      (m.params.map (fun p => (p.1.map Char.toLower, p.2))) }

/-- `QVALUE_REGEX = /^(?:(?:0(?:\.\d{1,3})?)|(?:1(?:\.0{1,3})?))$/`:
`"0"` or `"1"` alone, `"0."` plus one to three digits, or `"1."` plus one
to three zeros. -/
def qvalueValid : List Char → Bool
  | ['0'] => true
  | ['1'] => true
  | '0' :: '.' :: ds => decide (1 ≤ ds.length ∧ ds.length ≤ 3) && ds.all Char.isDigit
  | '1' :: '.' :: ds => decide (1 ≤ ds.length ∧ ds.length ≤ 3) && ds.all (· = '0')
  | _ => false

/-- `String.prototype.replace('.', '')`: remove the first `'.'` only. -/
def stripDot : List Char → List Char
  | [] => []
  | '.' :: rest => rest
  | c :: rest => c :: stripDot rest

/-- `parseInt(_, 10)` on a nonempty all-digit string. -/
def decToNat (ds : List Char) : Nat :=
  ds.foldl (fun n c => n * 10 + (c.toNat - '0'.toNat)) 0

/-- `findQ`: find the parameter literally named `q` on the normalised media
type; an invalid or missing value yields the default weight `1000`, a valid
value is converted by dropping the dot, right-padding with `'0'` to four
digits (`padEnd(4, '0')`) and parsing as a decimal integer, then clamped to
`0..1000`. The source's `NaN` check cannot fire: a regex-valid value keeps
only decimal digits after the dot is dropped. -/
def findQ (m : MediaType) : Nat :=
  match m.params.find? (fun p => p.1 == ['q']) with
  | none => 1000
  | some qParam =>
      if qvalueValid qParam.2 then
        let digits := stripDot qParam.2
        let normalised := digits ++ List.replicate (4 - digits.length) '0'
        let qvalue := decToNat normalised
        max (min 1000 qvalue) 0
      else 1000

/-- `findOverlappingParams`: the candidate's parameters, other than `q`,
whose `(name, value)` pair appears verbatim among the available type's
parameters. -/
def findOverlappingParams (a b : MediaType) : List (List Char × List Char) :=
  a.params.filter (fun ap =>
    ap.1 != ['q'] && b.params.any (fun bp => ap.1 == bp.1 && ap.2 == bp.2))

/-- Sequencing of a `.map` callback that can throw: the result is the list
of callback results, unless some callback throws (`none`), in which case the
first exception aborts the whole map. -/
def mapOrThrow (f : α → Option β) : List α → Option (List β)
  | [] => some []
  | a :: l =>
      match f a with
      | none => none
      | some b => (mapOrThrow f l).map (b :: ·)

/-- A constructed negotiator: the original strings and, index-aligned, their
parsed and normalised forms. The source's `mapToOriginal` (a `Map` keyed by
object identity) and `parsedAvailableTypes.indexOf` are rendered by this
index pairing: the engine always associates an accept entry with the first
available type, in list order, that overlaps it, so identity lookups and
first-value lookups agree. -/
structure Negotiator where
  availableMediaTypes : List (List Char)
  parsedAvailableTypes : List MediaType
deriving DecidableEq, Repr

/-- `negotiateMediaTypeFactory(availableMediaTypes)`: an empty list yields
the constant-`null` negotiator; otherwise each available type is parsed
strictly and normalised, and a `MediaTypeParsingError` thrown on the first
invalid entry propagates to the caller (modelled by `none`). -/
def negotiateMediaTypeFactory (availableMediaTypes : List (List Char)) :
    Option Negotiator :=
  if availableMediaTypes.isEmpty then some ⟨[], []⟩
  else
    match mapOrThrow
        (fun m => (parseMediaType m false).map normaliseMediaType)
        availableMediaTypes with
    | none => none
    | some parsed => some ⟨availableMediaTypes, parsed⟩

/-- The body of the `.map` callback over the tokenized accept ranges: parse
(strict or permissive as requested — an outer `none` models the uncaught
`MediaTypeParsingError`), normalise, compute the weight, and drop the entry
(inner `none`, the source's `return undefined`) when the weight is `0`. -/
def mkAcceptEntry (permissive : Bool) (t : List Char) :
    Option (Option (MediaType × Nat)) :=
  match parseMediaType t permissive with
  | none => none
  | some parsed =>
      let normalised := normaliseMediaType parsed
      let q := findQ normalised
      if q = 0 then some none
      else some (some (normalised, q))

/-- The `parsedAcceptableTypes` pipeline of `negotiate`: tokenize the accept
header — the source passes `(accept, permissive, false)` positionally, so
the `permissive` argument of `negotiate` lands in the tokenizer's
`typesOnly` parameter and the tokenizer itself always runs strict — then
map, filter out the dropped entries, and stable-sort by weight descending
(`(a, b) => qb - qa`). `none` models a `MediaTypeParsingError` escaping the
`.map` callback. -/
def acceptEntries (permissive : Bool) (accept : List Char) :
    Option (List (MediaType × Nat)) :=
  (mapOrThrow (mkAcceptEntry permissive) (parseAcceptHeader accept permissive false)).map
    (fun l => sortJS (fun a b => (b.2 : Int) - (a.2 : Int)) (l.filterMap id))

/-- The overlap test of the first pass, in source order: exact equality of
the normalised `type/subtype` strings, wildcard subtype with equal type, or
full wildcard. -/
def mtOverlaps (acceptable available : MediaType) : Bool :=
  mimeOf acceptable == mimeOf available
    || (acceptable.subtype == ['*'] && acceptable.type == available.type)
    || (acceptable.type == ['*'] && acceptable.subtype == ['*'])

/-- Index of the first available type that overlaps the given accept entry
(`Array.prototype.some` stops at the first hit, so `map.set` leaves the
first overlapping available type associated). -/
def firstOverlapIdx (e : MediaType) : List MediaType → Option Nat
  | [] => none
  | a :: rest =>
      if mtOverlaps e a then some 0 else (firstOverlapIdx e rest).map (· + 1)

/-- First pass of `negotiate`: keep the accept entries that overlap some
available type, each paired with the index of the first available type it
overlaps. -/
def overlappingTypes (avail : List MediaType) (entries : List (MediaType × Nat)) :
    List ((MediaType × Nat) × Nat) :=
  entries.filterMap (fun e => (firstOverlapIdx e.1 avail).map (fun i => (e, i)))

/-- Second pass: `highestQ` is the first (maximal) weight and the list is
`splice`d at the first index whose weight differs, i.e. truncated at the
first weight drop of the descending list. -/
def keepHighestQ : List ((MediaType × Nat) × Nat) → List ((MediaType × Nat) × Nat)
  | [] => []
  | x :: xs => x :: xs.takeWhile (fun y => y.1.2 == x.1.2)

/-- The specificity comparator of the final `sort`: wildcard type ranks
last, then wildcard subtype, then the larger count of parameters shared
with the associated available type, then the smaller index of the
associated available type (`indexOf` on the associated reference equals the
stored first-overlap index). -/
def specCmp (avail : List MediaType) (a b : (MediaType × Nat) × Nat) : Int :=
  if a.1.1.type == ['*'] && b.1.1.type != ['*'] then 1
  else if a.1.1.type != ['*'] && b.1.1.type == ['*'] then -1
  else if a.1.1.subtype == ['*'] && b.1.1.subtype != ['*'] then 1
  else if a.1.1.subtype != ['*'] && b.1.1.subtype == ['*'] then -1
  else
    let oa : Int := (findOverlappingParams a.1.1 (avail.getD a.2 default)).length
    let ob : Int := (findOverlappingParams b.1.1 (avail.getD b.2 default)).length
    if ob - oa ≠ 0 then ob - oa
    else (a.2 : Int) - (b.2 : Int)

/-- The negotiator closure returned by `negotiateMediaTypeFactory`.
`.error` models a `MediaTypeParsingError` thrown while parsing an accept
range (the `.map` callback has no handler); `.ok none` is the source's
`null`; `.ok (some s)` returns the original available-type string `s`. -/
def negotiate (n : Negotiator) (accept : Option (List Char)) (permissive : Bool) :
    Except Unit (Option (List Char)) :=
  if n.availableMediaTypes.isEmpty then .ok none
  else
    match accept with
    | none => .ok n.availableMediaTypes.head?
    | some [] => .ok n.availableMediaTypes.head?
    | some acc =>
        match acceptEntries permissive acc with
        | none => .error ()
        | some sorted =>
            let over := overlappingTypes n.parsedAvailableTypes sorted
            if over.isEmpty then .ok none
            else
              let kept := keepHighestQ over
              let ranked := sortJS (specCmp n.parsedAvailableTypes) kept
              match ranked.head? with
              | none => .ok none
              | some w => .ok (n.availableMediaTypes.get? w.2)

/-! ## Claim C1 -/

/-- C1: the claim states that `negotiate` tokenizes the accept header with
`typesOnly = false` and runs the tokenizer under the negotiation call's own
permissiveness, so that the `q` parameter of each range reaches the weight
decoder even when `permissive = true`. The source instead calls
`parseAcceptHeader(accept, permissive, false)` against the signature
`(accept, typesOnly, permissive)`, so `permissive = true` strips every
parameter during tokenization and the tokenizer always runs strict. At the
failing input below (`availableTypes = ["text/plain"]`,
`accept = "text/plain;q=0"`), a `q = 0` refusal is therefore ignored under
`permissive = true` — `negotiate` returns `"text/plain"` where the claimed
behaviour (and the module's own q-value documentation) requires `null` — 
while the same call with `permissive = false` returns `null`, and the
tokenizer output under `permissive = true` is the parameter-stripped
`["text/plain"]`. -/
theorem claim1_permissive_flag_lands_in_typesOnly :
    (negotiateMediaTypeFactory ["text/plain".toList]).map
        (fun n =>
          (negotiate n (some "text/plain;q=0".toList) true,
            negotiate n (some "text/plain;q=0".toList) false))
      = some (.ok (some "text/plain".toList), .ok none)
    ∧ parseAcceptHeader "text/plain;q=0".toList true false = ["text/plain".toList]
    ∧ parseAcceptHeader "text/plain;q=0".toList false true
        = ["text/plain;q=0".toList] := by
  refine ⟨rfl, by decide, by decide⟩

/-! ## Claim C6 -/

/-- Every digit character contributes at most `9` to `decToNat`. -/
theorem digit_contrib_le (c : Char) (h : c.isDigit = true) : c.toNat - '0'.toNat ≤ 9 := by
  simp [Char.isDigit] at h
  have h1 : 48 ≤ c.toNat := h.1
  have h2 : c.toNat ≤ 57 := h.2
  show c.toNat - 48 ≤ 9
  omega

/-- The shapes accepted by `QVALUE_REGEX`. -/
theorem qvalueValid_shapes (v : List Char) (h : qvalueValid v = true) :
    v = ['0'] ∨ v = ['1']
    ∨ (∃ ds, v = '0' :: '.' :: ds ∧ 1 ≤ ds.length ∧ ds.length ≤ 3
        ∧ ds.all Char.isDigit = true)
    ∨ (∃ ds, v = '1' :: '.' :: ds ∧ 1 ≤ ds.length ∧ ds.length ≤ 3
        ∧ ds.all (· = '0') = true) := by
  unfold qvalueValid at h
  split at h
  · exact Or.inl rfl
  · exact Or.inr (Or.inl rfl)
  · rename_i ds
    simp only [Bool.and_eq_true, decide_eq_true_eq] at h
    exact Or.inr (Or.inr (Or.inl ⟨ds, rfl, h.1.1, h.1.2, h.2⟩))
  · rename_i ds
    simp only [Bool.and_eq_true, decide_eq_true_eq] at h
    exact Or.inr (Or.inr (Or.inr ⟨ds, rfl, h.1.1, h.1.2, h.2⟩))
  · exact absurd h (by simp)

/-- The converted weight of a regex-valid `q` value is at most `1000`, so
the defensive clamp of `findQ` never alters it. -/
theorem qconvert_le_1000 (v : List Char) (h : qvalueValid v = true) :
    decToNat (stripDot v ++ List.replicate (4 - (stripDot v).length) '0') ≤ 1000 := by
  rcases qvalueValid_shapes v h with rfl | rfl | ⟨ds, rfl, h1, h3, hd⟩ | ⟨ds, rfl, h1, h3, hd⟩
  · decide
  · decide
  · have hstrip : stripDot ('0' :: '.' :: ds) = '0' :: ds := by simp [stripDot]
    rw [hstrip]
    match ds, h1, h3 with
    | [a], _, _ =>
        simp only [List.all_cons, List.all_nil, Bool.and_true] at hd
        have ha := digit_contrib_le a hd
        simp only [List.length_cons, List.length_nil, decToNat, List.foldl,
          List.replicate, List.cons_append, List.nil_append]
        omega
    | [a, b], _, _ =>
        simp only [List.all_cons, List.all_nil, Bool.and_true, Bool.and_eq_true] at hd
        have ha := digit_contrib_le a hd.1
        have hb := digit_contrib_le b hd.2
        simp only [List.length_cons, List.length_nil, decToNat, List.foldl,
          List.replicate, List.cons_append, List.nil_append]
        omega
    | [a, b, c], _, _ =>
        simp only [List.all_cons, List.all_nil, Bool.and_true, Bool.and_eq_true] at hd
        have ha := digit_contrib_le a hd.1
        have hb := digit_contrib_le b hd.2.1
        have hc := digit_contrib_le c hd.2.2
        simp only [List.length_cons, List.length_nil, decToNat, List.foldl,
          List.replicate, List.cons_append, List.nil_append]
        omega
  · have hstrip : stripDot ('1' :: '.' :: ds) = '1' :: ds := by simp [stripDot]
    rw [hstrip]
    match ds, h1, h3 with
    | [a], _, _ =>
        simp only [List.all_cons, List.all_nil, Bool.and_true, decide_eq_true_eq] at hd
        subst hd; decide
    | [a, b], _, _ =>
        simp only [List.all_cons, List.all_nil, Bool.and_true, Bool.and_eq_true,
          decide_eq_true_eq] at hd
        obtain ⟨rfl, rfl⟩ := hd; decide
    | [a, b, c], _, _ =>
        simp only [List.all_cons, List.all_nil, Bool.and_true, Bool.and_eq_true,
          decide_eq_true_eq] at hd
        obtain ⟨rfl, rfl, rfl⟩ := hd; decide

/-- C6: `findQ` on a normalised media type always yields a weight in
`[0, 1000]` (the result type is `Nat`, so only the upper bound needs
stating); when no parameter named `q` exists, or its value fails the
`q`-value grammar, the weight is exactly the default `1000`; when the value
matches the grammar, the weight equals the integer obtained by stripping
the decimal point and right-padding to four digits with zeros — the
defensive clamp never interferes. The claim's examples: `"0.5"` decodes to
`500` and `"1"` to `1000`. -/
theorem claim6_quality_weight_decoder (m : MediaType) :
    findQ m ≤ 1000
    ∧ (m.params.find? (fun p => p.1 == ['q']) = none → findQ m = 1000)
    ∧ (∀ p, m.params.find? (fun p => p.1 == ['q']) = some p →
        (qvalueValid p.2 = true →
          findQ m = decToNat (stripDot p.2
            ++ List.replicate (4 - (stripDot p.2).length) '0'))
        ∧ (qvalueValid p.2 = false → findQ m = 1000))
    ∧ findQ ⟨"text".toList, "html".toList, [(['q'], "0.5".toList)]⟩ = 500
    ∧ findQ ⟨"text".toList, "html".toList, [(['q'], ['1'])]⟩ = 1000 := by
  refine ⟨?_, ?_, ?_, by decide, by decide⟩
  · rcases hf : m.params.find? (fun p => p.1 == ['q']) with _ | qParam
    · simp [findQ, hf]
    · by_cases hv : qvalueValid qParam.2 = true
      · simp only [findQ, hf, hv, if_true]
        exact Nat.max_le.mpr ⟨Nat.min_le_left _ _, Nat.zero_le _⟩
      · simp [findQ, hf, hv]
  · intro hf
    simp [findQ, hf]
  · intro p hf
    constructor
    · intro hv
      simp only [findQ, hf, hv, if_true]
      have hb := qconvert_le_1000 p.2 hv
      rw [Nat.min_eq_right hb, Nat.max_eq_left (Nat.zero_le _)]
    · intro hv
      simp [findQ, hf, hv]

/-- Witness for C6 at concrete inputs: a missing `q` decodes to the default
`1000`, and the bound holds at the `"0.5"` example. -/
theorem claim6_witness :
    findQ ⟨"text".toList, "plain".toList, []⟩ = 1000
    ∧ findQ ⟨"text".toList, "html".toList, [(['q'], "0.5".toList)]⟩ ≤ 1000 :=
  ⟨(claim6_quality_weight_decoder _).2.1 (by decide),
    (claim6_quality_weight_decoder _).1⟩

/-! ## Claim C7 -/

/-- The parser's invalid state absorbs single steps (the source sets
`pos = Infinity`, ending the scan). -/
theorem pmtStep_invalid_id (p : Bool) (st : PSt) (chr : Option Char)
    (h : st.state = .invalid) : pmtStep p st chr = st := by
  unfold pmtStep
  rw [h]

/-- The parser's invalid state absorbs whole scans. -/
theorem pmtFold_invalid (p : Bool) (st : PSt) (l : List Char)
    (h : st.state = .invalid) : pmtFold p st l = st := by
  induction l with
  | nil => rfl
  | cons c rest ih =>
      show pmtFold p (pmtStep p st (some c)) rest = st
      rw [pmtStep_invalid_id p st (some c) h, ih]

/-- Scanning a concatenation scans the two parts in sequence. -/
theorem pmtFold_append (p : Bool) (st : PSt) (u v : List Char) :
    pmtFold p st (u ++ v) = pmtFold p (pmtFold p st u) v := by
  induction u generalizing st with
  | nil => rfl
  | cons c rest ih =>
      show pmtFold p (pmtStep p st (some c)) (rest ++ v) = _
      rw [ih]
      rfl

/-- C7: strict `parseMediaType` succeeds exactly when the scan captured a
nonempty type and a nonempty subtype and ended in the subtype-end or
params-start state; every other strict input fails with `ParseError`
(`none`). Moreover the invalid state is absorbing — if any prefix of the
scan reaches it, the final state is still invalid — so acceptance entails
that the scan consumed the entire input without ever entering the invalid
state (in the source, `pos` only reaches `mediaType.length + 1` in that
case). -/
theorem claim7_strict_acceptance_condition (s : List Char) :
    ((parseMediaType s false).isSome = true ↔
      ((∃ ty, (pmtFinal false s).type? = some ty ∧ ty ≠ [])
        ∧ (∃ sub, (pmtFinal false s).subtype? = some sub ∧ sub ≠ [])
        ∧ ((pmtFinal false s).state = .subtypeEnd
            ∨ (pmtFinal false s).state = .paramsStart)))
    ∧ (∀ u v, s = u ++ v → (pmtFold false pmtInit u).state = .invalid →
        (pmtFinal false s).state = .invalid)
    ∧ ((pmtFinal false s).state = .subtypeEnd ∨ (pmtFinal false s).state = .paramsStart →
        (pmtFinal false s).state ≠ .invalid) := by
  refine ⟨?_, ?_, ?_⟩
  · unfold parseMediaType
    rcases hty : (pmtFinal false s).type? with _ | ty
    · simp [hty]
    · rcases hsub : (pmtFinal false s).subtype? with _ | sub
      · simp [hty, hsub]
      · by_cases hacc : ty ≠ [] ∧ sub ≠ []
          ∧ ((pmtFinal false s).state = .subtypeEnd ∨ (pmtFinal false s).state = .paramsStart)
        · simp only [hty, hsub]
          rw [if_pos hacc]
          simp only [Option.isSome_some, true_iff]
          exact ⟨⟨ty, rfl, hacc.1⟩, ⟨sub, rfl, hacc.2.1⟩, hacc.2.2⟩
        · simp only [hty, hsub]
          rw [if_neg hacc]
          simp only [Option.isSome_none, Bool.false_eq_true, false_iff]
          rintro ⟨⟨ty', hty', hne⟩, ⟨sub', hsub', hne'⟩, hst⟩
          simp only [Option.some_inj] at hty' hsub'
          subst hty'
          subst hsub'
          exact hacc ⟨hne, hne', hst⟩
  · intro u v huv hinv
    unfold pmtFinal
    rw [huv, pmtFold_append, pmtFold_invalid false _ v hinv,
      pmtStep_invalid_id false _ none hinv]
    exact hinv
  · rintro (h | h) <;> rw [h] <;> intro hc <;> exact absurd hc (by simp)

/-- Witness for C7 at a concrete accepted and a concrete rejected input. -/
theorem claim7_witness :
    (parseMediaType "text/html".toList false).isSome = true
    ∧ (parseMediaType "text/".toList false).isSome = false :=
  ⟨((claim7_strict_acceptance_condition "text/html".toList).1).mpr (by decide),
    by
      have h := (claim7_strict_acceptance_condition "text/".toList).1
      rcases hi : (parseMediaType "text/".toList false).isSome
      · rfl
      · exact absurd (h.mp hi) (by decide)⟩

/-! ## Parser scan invariant (claims C5 and C10) -/

/-- A (possibly empty) run of optional-whitespace characters. -/
def OWSRun (l : List Char) : Prop := ∀ c ∈ l, isOWS c = true

/-- A nonempty run of grammar-token characters. -/
def TokRun (l : List Char) : Prop := l ≠ [] ∧ ∀ c ∈ l, isToken c = true

theorem isTokenO_elim {chr : Option Char} (h : isTokenO chr = true) :
    ∃ c, chr = some c ∧ isToken c = true := by
  cases chr with
  | none => exact absurd h (by simp [isTokenO])
  | some c => exact ⟨c, rfl, h⟩

theorem isOWSO_elim {chr : Option Char} (h : isOWSO chr = true) :
    ∃ c, chr = some c ∧ isOWS c = true := by
  cases chr with
  | none => exact absurd h (by simp [isOWSO])
  | some c => exact ⟨c, rfl, h⟩

theorem TokRun.single {c : Char} (h : isToken c = true) : TokRun [c] :=
  ⟨by simp, by simpa using h⟩

theorem TokRun.push {l : List Char} {c : Char} (hl : TokRun l) (h : isToken c = true) :
    TokRun (l ++ [c]) :=
  ⟨by simp, by
    intro d hd
    rcases List.mem_append.mp hd with hd | hd
    · exact hl.2 d hd
    · simp only [List.mem_singleton] at hd
      exact hd ▸ h⟩

theorem OWSRun.nil : OWSRun [] := by intro c hc; cases hc

theorem OWSRun.snoc {l : List Char} {c : Char} (hl : OWSRun l) (h : isOWS c = true) :
    OWSRun (l ++ [c]) := by
  intro d hd
  rcases List.mem_append.mp hd with hd | hd
  · exact hl d hd
  · simp only [List.mem_singleton] at hd
    exact hd ▸ h

/-- The structural invariant of the `parseMediaType` scan, relative to the
input consumed so far: the pending and captured type/subtype are nonempty
token runs, and the consumed input decomposes as leading whitespace, the
type run, the slash, (in permissive mode) whitespace, the subtype run, and
— once parameters began — an arbitrary remainder. -/
def PFull (consumed : List Char) (st : PSt) : Prop :=
  match st.state with
  | .invalid => True
  | .initial => OWSRun consumed ∧ st.type? = none ∧ st.subtype? = none
  | .typ =>
      (∃ u, OWSRun u ∧ consumed = u ++ st.cur)
      ∧ TokRun st.cur ∧ st.type? = none ∧ st.subtype? = none
  | .subtypeStart =>
      (∃ u v ty, st.type? = some ty ∧ TokRun ty ∧ OWSRun u ∧ OWSRun v
        ∧ consumed = u ++ ty ++ '/' :: v)
      ∧ st.subtype? = none
  | .subtype =>
      (∃ u v ty, st.type? = some ty ∧ TokRun ty ∧ OWSRun u ∧ OWSRun v
        ∧ consumed = u ++ ty ++ '/' :: v ++ st.cur)
      ∧ TokRun st.cur ∧ st.subtype? = none
  | _ =>
      ∃ u v r ty sub, st.type? = some ty ∧ st.subtype? = some sub
        ∧ TokRun ty ∧ TokRun sub ∧ OWSRun u ∧ OWSRun v
        ∧ consumed = u ++ ty ++ '/' :: v ++ sub ++ r

theorem pmtStep_full (p : Bool) (st : PSt) (chr : Option Char) (consumed : List Char)
    (h : PFull consumed st) : PFull (consumed ++ chr.toList) (pmtStep p st chr) := by
  obtain ⟨state, type?, subtype?, params, cur, t⟩ := st
  cases state with
  | invalid => trivial
  | initial =>
      obtain ⟨hows, hty, hsub⟩ := h
      show PFull _ (pmtStep p _ chr)
      simp only [pmtStep]
      by_cases htok : isTokenO chr = true
      · rw [if_pos htok]
        obtain ⟨c, rfl, hc⟩ := isTokenO_elim htok
        dsimp only [PFull]
        exact ⟨⟨consumed, hows, rfl⟩, TokRun.single hc, hty, hsub⟩
      · rw [if_neg htok]
        by_cases hows' : isOWSO chr = true
        · rw [if_pos hows']
          obtain ⟨c, rfl, hc⟩ := isOWSO_elim hows'
          dsimp only [PFull]
          exact ⟨hows.snoc hc, hty, hsub⟩
        · rw [if_neg hows']
          simp only [PFull]
  | typ =>
      obtain ⟨⟨u, hu, hcons⟩, hcur, hty, hsub⟩ := h
      show PFull _ (pmtStep p _ chr)
      simp only [pmtStep]
      by_cases htok : isTokenO chr = true
      · rw [if_pos htok]
        obtain ⟨c, rfl, hc⟩ := isTokenO_elim htok
        dsimp only [PFull]
        exact ⟨⟨u, hu, by simp [hcons]⟩, hcur.push hc, hty, hsub⟩
      · rw [if_neg htok]
        by_cases hsl : chr = some '/'
        · rw [if_pos hsl]
          subst hsl
          dsimp only [PFull]
          exact ⟨⟨u, [], cur, rfl, hcur, hu, OWSRun.nil, by simp [hcons]⟩, hsub⟩
        · rw [if_neg hsl]
          simp only [PFull]
  | subtypeStart =>
      obtain ⟨⟨u, v, ty, hty, htyr, hu, hv, hcons⟩, hsub⟩ := h
      show PFull _ (pmtStep p _ chr)
      simp only [pmtStep]
      by_cases htok : isTokenO chr = true
      · rw [if_pos htok]
        obtain ⟨c, rfl, hc⟩ := isTokenO_elim htok
        dsimp only [PFull]
        exact ⟨⟨u, v, ty, hty, htyr, hu, hv, by simp [hcons]⟩, TokRun.single hc, hsub⟩
      · rw [if_neg htok]
        by_cases hpw : p = true ∧ isOWSO chr = true
        · rw [if_pos hpw]
          obtain ⟨c, rfl, hc⟩ := isOWSO_elim hpw.2
          dsimp only [PFull]
          exact ⟨⟨u, v ++ [c], ty, hty, htyr, hu, hv.snoc hc, by simp [hcons]⟩, hsub⟩
        · rw [if_neg hpw]
          simp only [PFull]
  | subtype =>
      obtain ⟨⟨u, v, ty, hty, htyr, hu, hv, hcons⟩, hcur, hsub⟩ := h
      show PFull _ (pmtStep p _ chr)
      simp only [pmtStep]
      by_cases htok : isTokenO chr = true
      · rw [if_pos htok]
        obtain ⟨c, rfl, hc⟩ := isTokenO_elim htok
        dsimp only [PFull]
        exact ⟨⟨u, v, ty, hty, htyr, hu, hv, by simp [hcons]⟩, hcur.push hc, hsub⟩
      · rw [if_neg htok]
        by_cases hsc : chr = some ';' ∨ chr = none
        · rw [if_pos hsc]
          dsimp only [PFull]
          exact ⟨u, v, chr.toList, ty, cur, hty, rfl, htyr, hcur, hu, hv, by simp [hcons]⟩
        · rw [if_neg hsc]
          by_cases hows : isOWSO chr = true
          · rw [if_pos hows]
            dsimp only [PFull]
            exact ⟨u, v, chr.toList, ty, cur, hty, rfl, htyr, hcur, hu, hv, by simp [hcons]⟩
          · rw [if_neg hows]
            simp only [PFull]
  | subtypeEnd =>
      obtain ⟨u, v, r, ty, sub, hty, hsub, htyr, hsubr, hu, hv, hcons⟩ := h
      show PFull _ (pmtStep p _ chr)
      simp only [pmtStep]
      by_cases hsc : chr = some ';' ∨ chr = none
      · rw [if_pos hsc]
        dsimp only [PFull]
        exact ⟨u, v, r ++ chr.toList, ty, sub, hty, hsub, htyr, hsubr, hu, hv, by simp [hcons]⟩
      · rw [if_neg hsc]
        by_cases hows : isOWSO chr = true
        · rw [if_pos hows]
          dsimp only [PFull]
          exact ⟨u, v, r ++ chr.toList, ty, sub, hty, hsub, htyr, hsubr, hu, hv, by simp [hcons]⟩
        · rw [if_neg hows]
          simp only [PFull]
  | paramsStart =>
      obtain ⟨u, v, r, ty, sub, hty, hsub, htyr, hsubr, hu, hv, hcons⟩ := h
      show PFull _ (pmtStep p _ chr)
      simp only [pmtStep]
      by_cases htok : isTokenO chr = true
      · rw [if_pos htok]
        dsimp only [PFull]
        exact ⟨u, v, r ++ chr.toList, ty, sub, hty, hsub, htyr, hsubr, hu, hv, by simp [hcons]⟩
      · rw [if_neg htok]
        by_cases hrest : isOWSO chr = true ∨ chr = some ';' ∨ chr = none
        · rw [if_pos hrest]
          dsimp only [PFull]
          exact ⟨u, v, r ++ chr.toList, ty, sub, hty, hsub, htyr, hsubr, hu, hv, by simp [hcons]⟩
        · rw [if_neg hrest]
          simp only [PFull]
  | parameterName =>
      obtain ⟨u, v, r, ty, sub, hty, hsub, htyr, hsubr, hu, hv, hcons⟩ := h
      show PFull _ (pmtStep p _ chr)
      simp only [pmtStep]
      by_cases htok : isTokenO chr = true
      · rw [if_pos htok]
        dsimp only [PFull]
        exact ⟨u, v, r ++ chr.toList, ty, sub, hty, hsub, htyr, hsubr, hu, hv, by simp [hcons]⟩
      · rw [if_neg htok]
        by_cases heq : chr = some '='
        · rw [if_pos heq]
          dsimp only [PFull]
          exact ⟨u, v, r ++ chr.toList, ty, sub, hty, hsub, htyr, hsubr, hu, hv, by simp [hcons]⟩
        · rw [if_neg heq]
          by_cases hpw : p = true ∧ isOWSO chr = true
          · rw [if_pos hpw]
            dsimp only [PFull]
            exact ⟨u, v, r ++ chr.toList, ty, sub, hty, hsub, htyr, hsubr, hu, hv, by simp [hcons]⟩
          · rw [if_neg hpw]
            by_cases hps : p = true ∧ (chr = some ';' ∨ chr = none)
            · rw [if_pos hps]
              dsimp only [PFull]
              exact ⟨u, v, r ++ chr.toList, ty, sub, hty, hsub, htyr, hsubr, hu, hv, by simp [hcons]⟩
            · rw [if_neg hps]
              simp only [PFull]
  | parameterNameEnd =>
      obtain ⟨u, v, r, ty, sub, hty, hsub, htyr, hsubr, hu, hv, hcons⟩ := h
      show PFull _ (pmtStep p _ chr)
      simp only [pmtStep]
      by_cases hows : isOWSO chr = true
      · rw [if_pos hows]
        dsimp only [PFull]
        exact ⟨u, v, r ++ chr.toList, ty, sub, hty, hsub, htyr, hsubr, hu, hv, by simp [hcons]⟩
      · rw [if_neg hows]
        by_cases hsc : chr = some ';' ∨ chr = none
        · rw [if_pos hsc]
          dsimp only [PFull]
          exact ⟨u, v, r ++ chr.toList, ty, sub, hty, hsub, htyr, hsubr, hu, hv, by simp [hcons]⟩
        · rw [if_neg hsc]
          by_cases heq : chr = some '='
          · rw [if_pos heq]
            dsimp only [PFull]
            exact ⟨u, v, r ++ chr.toList, ty, sub, hty, hsub, htyr, hsubr, hu, hv, by simp [hcons]⟩
          · rw [if_neg heq]
            dsimp only [PFull]
            exact ⟨u, v, r ++ chr.toList, ty, sub, hty, hsub, htyr, hsubr, hu, hv, by simp [hcons]⟩
  | parameterValueStart =>
      obtain ⟨u, v, r, ty, sub, hty, hsub, htyr, hsubr, hu, hv, hcons⟩ := h
      show PFull _ (pmtStep p _ chr)
      simp only [pmtStep]
      by_cases htok : isTokenO chr = true
      · rw [if_pos htok]
        dsimp only [PFull]
        exact ⟨u, v, r ++ chr.toList, ty, sub, hty, hsub, htyr, hsubr, hu, hv, by simp [hcons]⟩
      · rw [if_neg htok]
        by_cases hq : chr = some '"'
        · rw [if_pos hq]
          dsimp only [PFull]
          exact ⟨u, v, r ++ chr.toList, ty, sub, hty, hsub, htyr, hsubr, hu, hv, by simp [hcons]⟩
        · rw [if_neg hq]
          by_cases hpw : p = true ∧ isOWSO chr = true
          · rw [if_pos hpw]
            dsimp only [PFull]
            exact ⟨u, v, r ++ chr.toList, ty, sub, hty, hsub, htyr, hsubr, hu, hv, by simp [hcons]⟩
          · rw [if_neg hpw]
            by_cases hps : p = true ∧ (chr = some ';' ∨ chr = none)
            · rw [if_pos hps]
              dsimp only [PFull]
              exact ⟨u, v, r ++ chr.toList, ty, sub, hty, hsub, htyr, hsubr, hu, hv, by simp [hcons]⟩
            · rw [if_neg hps]
              simp only [PFull]
  | parameterValue =>
      obtain ⟨u, v, r, ty, sub, hty, hsub, htyr, hsubr, hu, hv, hcons⟩ := h
      show PFull _ (pmtStep p _ chr)
      simp only [pmtStep]
      by_cases htok : isTokenO chr = true
      · rw [if_pos htok]
        dsimp only [PFull]
        exact ⟨u, v, r ++ chr.toList, ty, sub, hty, hsub, htyr, hsubr, hu, hv, by simp [hcons]⟩
      · rw [if_neg htok]
        by_cases hsc : chr = some ';' ∨ chr = none
        · rw [if_pos hsc]
          dsimp only [PFull]
          exact ⟨u, v, r ++ chr.toList, ty, sub, hty, hsub, htyr, hsubr, hu, hv, by simp [hcons]⟩
        · rw [if_neg hsc]
          by_cases hows : isOWSO chr = true
          · rw [if_pos hows]
            dsimp only [PFull]
            exact ⟨u, v, r ++ chr.toList, ty, sub, hty, hsub, htyr, hsubr, hu, hv, by simp [hcons]⟩
          · rw [if_neg hows]
            simp only [PFull]
  | parameterQuoted =>
      obtain ⟨u, v, r, ty, sub, hty, hsub, htyr, hsubr, hu, hv, hcons⟩ := h
      show PFull _ (pmtStep p _ chr)
      simp only [pmtStep]
      by_cases hcont : ¬(p = true ∧ chr = none)
          ∧ (chr ≠ some '"' ∨ List.getLast? cur = some '\\')
      · rw [if_pos hcont]
        dsimp only [PFull]
        exact ⟨u, v, r ++ chr.toList, ty, sub, hty, hsub, htyr, hsubr, hu, hv, by simp [hcons]⟩
      · rw [if_neg hcont]
        dsimp only [PFull]
        exact ⟨u, v, r ++ chr.toList, ty, sub, hty, hsub, htyr, hsubr, hu, hv, by simp [hcons]⟩

/-- The scan invariant holds after folding any input from any invariant
state. -/
theorem pmtFold_full (p : Bool) (l : List Char) (st : PSt) (consumed : List Char)
    (h : PFull consumed st) : PFull (consumed ++ l) (pmtFold p st l) := by
  induction l generalizing st consumed with
  | nil => simpa using h
  | cons c rest ih =>
      have hstep := pmtStep_full p st (some c) consumed h
      have := ih (pmtStep p st (some c)) (consumed ++ [c]) hstep
      simpa using this

/-- The scan invariant at the end of the whole scan of `s`. -/
theorem pmtFinal_full (p : Bool) (s : List Char) : PFull s (pmtFinal p s) := by
  have h0 : PFull [] pmtInit := ⟨OWSRun.nil, rfl, rfl⟩
  have h1 := pmtFold_full p s pmtInit [] h0
  have h2 := pmtStep_full p (pmtFold p pmtInit s) none s (by simpa using h1)
  simpa using h2

/-! ## Claims C5 and C10 -/

/-- Elimination form of a successful parse: the final scan state carries the
returned type and subtype and is an accepting state. -/
theorem parseMediaType_eq_some_elim {s : List Char} {p : Bool} {m : MediaType}
    (h : parseMediaType s p = some m) :
    (pmtFinal p s).type? = some m.type ∧ (pmtFinal p s).subtype? = some m.subtype
    ∧ ((pmtFinal p s).state = .subtypeEnd ∨ (pmtFinal p s).state = .paramsStart) := by
  unfold parseMediaType at h
  simp only [] at h
  rcases hty : (pmtFinal p s).type? with _ | ty
  · rw [hty] at h
    exact absurd h (by simp)
  · rcases hsub : (pmtFinal p s).subtype? with _ | sub
    · rw [hty, hsub] at h
      exact absurd h (by simp)
    · rw [hty, hsub] at h
      simp only [] at h
      by_cases hacc : ty ≠ [] ∧ sub ≠ []
          ∧ ((pmtFinal p s).state = .subtypeEnd ∨ (pmtFinal p s).state = .paramsStart)
      · rw [if_pos hacc] at h
        injection h with h
        subst h
        exact ⟨rfl, rfl, hacc.2.2⟩
      · rw [if_neg hacc] at h
        exact absurd h (by simp)

/-- In an accepting final state, the invariant yields the captured type and
subtype as token runs together with the input decomposition. -/
theorem parseMediaType_structure {s : List Char} {p : Bool} {m : MediaType}
    (h : parseMediaType s p = some m) :
    ∃ u v r, OWSRun u ∧ OWSRun v ∧ TokRun m.type ∧ TokRun m.subtype
      ∧ s = u ++ m.type ++ '/' :: v ++ m.subtype ++ r := by
  obtain ⟨hty, hsub, hstate⟩ := parseMediaType_eq_some_elim h
  have hfull := pmtFinal_full p s
  rcases hstate with hs | hs
  all_goals
    rw [PFull, hs] at hfull
    obtain ⟨u, v, r, ty, sub, hty', hsub', htyr, hsubr, hu, hv, hcons⟩ := hfull
    rw [hty] at hty'
    rw [hsub] at hsub'
    simp only [Option.some_inj] at hty' hsub'
    subst hty'
    subst hsub'
    exact ⟨u, v, r, hu, hv, htyr, hsubr, hcons⟩

/-- C5 counterexample: the parser accepts `"*/json"` in both modes and
returns `type = "*"` with `subtype = "json" ≠ "*"`, violating the claimed
invariant that the type is `'*'` only when the subtype is `'*'` (the parser
treats `'*'` as an ordinary token character). -/
theorem claim5_counterexample_wildcard_type_with_concrete_subtype :
    parseMediaType "*/json".toList false
        = some ⟨['*'], "json".toList, []⟩
    ∧ parseMediaType "*/json".toList true
        = some ⟨['*'], "json".toList, []⟩
    ∧ ("json".toList ≠ ['*']) := by
  exact ⟨by decide, by decide, by decide⟩

/-- C5 as amended: every media type returned by the parser, in either mode,
has a nonempty grammar-token run as its type and as its subtype; the parser
does not enforce the wildcard side condition (`type = "*"` only with
`subtype = "*"`), since `'*'` is an ordinary token character. -/
theorem claim5_parser_type_subtype_token_runs (s : List Char) (p : Bool) (m : MediaType)
    (h : parseMediaType s p = some m) :
    m.type ≠ [] ∧ (∀ c ∈ m.type, isToken c = true)
    ∧ m.subtype ≠ [] ∧ (∀ c ∈ m.subtype, isToken c = true) := by
  obtain ⟨u, v, r, hu, hv, htyr, hsubr, hcons⟩ := parseMediaType_structure h
  exact ⟨htyr.1, htyr.2, hsubr.1, hsubr.2⟩

/-- Witness for C5 (amended) at a concrete accepted input. -/
theorem claim5_witness :
    "text".toList ≠ ([] : List Char)
    ∧ (∀ c ∈ "text".toList, isToken c = true)
    ∧ "html".toList ≠ ([] : List Char)
    ∧ (∀ c ∈ "html".toList, isToken c = true) :=
  claim5_parser_type_subtype_token_runs "text/html".toList false
    ⟨"text".toList, "html".toList, []⟩ (by decide)

/-- C10: permissive `parseMediaType` is still partial — it accepts only
inputs containing a nonempty token run, a `'/'`, and a nonempty subtype
token run (separated only by optional whitespace, which is what permissive
mode relaxes), and it rejects the claim's examples `""`, `"text"` and
`"/json"`. Contrapositive of the first conjunct: any input with no such
decomposition makes permissive `parseMediaType` fail with `ParseError`. -/
theorem claim10_permissive_requires_type_slash_subtype :
    (∀ s m, parseMediaType s true = some m →
      ∃ u ty v sub r, OWSRun u ∧ TokRun ty ∧ OWSRun v ∧ TokRun sub
        ∧ s = u ++ ty ++ '/' :: v ++ sub ++ r)
    ∧ parseMediaType [] true = none
    ∧ parseMediaType "text".toList true = none
    ∧ parseMediaType "/json".toList true = none := by
  refine ⟨?_, by decide, by decide, by decide⟩
  intro s m h
  obtain ⟨u, v, r, hu, hv, htyr, hsubr, hcons⟩ := parseMediaType_structure h
  exact ⟨u, m.type, v, m.subtype, r, hu, htyr, hv, hsubr, hcons⟩

/-- Witness for C10 at a concrete permissive parse (`"text/ html"`, with the
permissive-only whitespace after the slash). -/
theorem claim10_witness :
    ∃ u ty v sub r, OWSRun u ∧ TokRun ty ∧ OWSRun v ∧ TokRun sub
      ∧ "text/ html".toList = u ++ ty ++ '/' :: v ++ sub ++ r :=
  claim10_permissive_requires_type_slash_subtype.1 "text/ html".toList
    ⟨"text".toList, "html".toList, []⟩ (by decide)


/-! ## Claim C9 -/

theorem take_ne_nil {l : List Char} {k : Nat} (hl : l ≠ []) (hk : 1 ≤ k) :
    l.take k ≠ [] := by
  cases l with
  | nil => exact absurd rfl hl
  | cons a t =>
      cases k with
      | zero => exact absurd hk (by simp)
      | succ k => simp

theorem types_push_ne {types : List (List Char)} {acc : List Char} {k : Nat}
    (hne : ∀ t ∈ types, t ≠ []) (h1 : 1 ≤ k) (h2 : k ≤ acc.length) :
    ∀ t ∈ types ++ [acc.take k], t ≠ [] := by
  intro t ht
  rcases List.mem_append.mp ht with ht | ht
  · exact hne t ht
  · simp only [List.mem_singleton] at ht
    subst ht
    have hacc : acc ≠ [] := by
      intro he
      rw [he] at h2
      simp at h2
      omega
    exact take_ne_nil hacc h1

theorem emit_ne {types : List (List Char)} {acc : List Char} {te pe : Nat} (tO : Bool)
    (hne : ∀ t ∈ types, t ≠ []) (h1 : 1 ≤ te) (h2 : te ≤ acc.length)
    (h3 : 1 ≤ pe) (h4 : pe ≤ acc.length) :
    ∀ t ∈ types ++ [acc.take (if tO then te else pe)], t ≠ [] := by
  cases tO
  · simpa using types_push_ne hne h3 h4
  · simpa using types_push_ne hne h1 h2

/-- The accept-header scan invariant: every emitted entry is nonempty, and
while an entry is in progress the span `acc` covers at least the
`type/subtype` prefix, with the marks `teLen`/`peLen` inside `[1, |acc|]`
once the subtype completed. -/
def AInv (st : ASt) : Prop :=
  (∀ t ∈ st.types, t ≠ [])
  ∧ match st.state with
    | .initial => True
    | .invalid => True
    | .typ => 1 ≤ st.acc.length
    | .subtypeStart => 2 ≤ st.acc.length
    | .subtype => 3 ≤ st.acc.length
    | _ => 1 ≤ st.teLen ∧ st.teLen ≤ st.acc.length
        ∧ 1 ≤ st.peLen ∧ st.peLen ≤ st.acc.length

theorem tokStep_inv (tO p : Bool) (st : ASt) (chr : Option Char)
    (h : AInv st) : AInv (tokStep tO p st chr) := by
  obtain ⟨state, acc, teLen, peLen, types⟩ := st
  obtain ⟨hne, hst⟩ := h
  have hadv : acc.length ≤ (acc ++ chr.toList).length := by simp
  cases state with
  | invalid =>
      show AInv (tokStep tO p _ chr)
      simp only [tokStep]
      by_cases hc : chr = some ','
      · rw [if_pos hc]
        exact ⟨hne, trivial⟩
      · rw [if_neg hc]
        exact ⟨hne, trivial⟩
  | initial =>
      show AInv (tokStep tO p _ chr)
      simp only [tokStep]
      by_cases hc1 : isOWSO chr = true ∨ chr = some ','
      · rw [if_pos hc1]
        exact ⟨hne, trivial⟩
      · rw [if_neg hc1]
        by_cases htok : isTokenO chr = true
        · rw [if_pos htok]
          obtain ⟨c, rfl, hc⟩ := isTokenO_elim htok
          exact ⟨hne, by simp⟩
        · rw [if_neg htok]
          exact ⟨hne, trivial⟩
  | typ =>
      simp only [AInv] at hst
      show AInv (tokStep tO p _ chr)
      simp only [tokStep]
      by_cases htok : isTokenO chr = true
      · rw [if_pos htok]
        exact ⟨hne, by dsimp only [AInv]; omega⟩
      · rw [if_neg htok]
        by_cases hsl : chr = some '/'
        · rw [if_pos hsl]
          subst hsl
          exact ⟨hne, by dsimp only [AInv]; simp; omega⟩
        · rw [if_neg hsl]
          by_cases hcm : chr = some ','
          · rw [if_pos hcm]
            exact ⟨hne, trivial⟩
          · rw [if_neg hcm]
            exact ⟨hne, trivial⟩
  | subtypeStart =>
      simp only [AInv] at hst
      show AInv (tokStep tO p _ chr)
      simp only [tokStep]
      by_cases htok : isTokenO chr = true
      · rw [if_pos htok]
        obtain ⟨c, rfl, hc⟩ := isTokenO_elim htok
        exact ⟨hne, by dsimp only [AInv]; simp; omega⟩
      · rw [if_neg htok]
        by_cases hpw : p = true ∧ isOWSO chr = true
        · rw [if_pos hpw]
          exact ⟨hne, by dsimp only [AInv]; omega⟩
        · rw [if_neg hpw]
          by_cases hcm : chr = some ','
          · rw [if_pos hcm]
            exact ⟨hne, trivial⟩
          · rw [if_neg hcm]
            exact ⟨hne, trivial⟩
  | subtype =>
      simp only [AInv] at hst
      show AInv (tokStep tO p _ chr)
      simp only [tokStep]
      by_cases htok : isTokenO chr = true
      · rw [if_pos htok]
        exact ⟨hne, by dsimp only [AInv]; omega⟩
      · rw [if_neg htok]
        by_cases hcm : chr = some ',' ∨ chr = none
        · rw [if_pos hcm]
          dsimp only [ASt.reset, AInv]
          exact ⟨emit_ne tO hne (by omega) (by omega) (by omega) (by omega), trivial⟩
        · rw [if_neg hcm]
          by_cases hsc : chr = some ';'
          · rw [if_pos hsc]
            exact ⟨hne, by dsimp only [AInv]; omega⟩
          · rw [if_neg hsc]
            by_cases hows : isOWSO chr = true
            · rw [if_pos hows]
              exact ⟨hne, by dsimp only [AInv]; omega⟩
            · rw [if_neg hows]
              exact ⟨hne, trivial⟩
  | subtypeEnd =>
      simp only [AInv] at hst
      obtain ⟨h1, h2, h3, h4⟩ := hst
      show AInv (tokStep tO p _ chr)
      simp only [tokStep]
      by_cases hcm : chr = some ',' ∨ chr = none
      · rw [if_pos hcm]
        dsimp only [ASt.reset, AInv]
        exact ⟨emit_ne tO hne h1 h2 h3 h4, trivial⟩
      · rw [if_neg hcm]
        by_cases hsc : chr = some ';'
        · rw [if_pos hsc]
          exact ⟨hne, by dsimp only [AInv]; omega⟩
        · rw [if_neg hsc]
          by_cases hows : isOWSO chr = true
          · rw [if_pos hows]
            exact ⟨hne, by dsimp only [AInv]; omega⟩
          · rw [if_neg hows]
            exact ⟨hne, trivial⟩
  | paramsStart =>
      simp only [AInv] at hst
      obtain ⟨h1, h2, h3, h4⟩ := hst
      show AInv (tokStep tO p _ chr)
      simp only [tokStep]
      by_cases htok : isTokenO chr = true
      · rw [if_pos htok]
        exact ⟨hne, by dsimp only [AInv]; omega⟩
      · rw [if_neg htok]
        by_cases hc1 : isOWSO chr = true ∨ chr = some ';'
        · rw [if_pos hc1]
          exact ⟨hne, by dsimp only [AInv]; omega⟩
        · rw [if_neg hc1]
          by_cases hcm : chr = some ',' ∨ chr = none
          · rw [if_pos hcm]
            dsimp only [ASt.reset, AInv]
            exact ⟨emit_ne tO hne h1 h2 h3 h4, trivial⟩
          · rw [if_neg hcm]
            exact ⟨hne, trivial⟩
  | parameterName =>
      simp only [AInv] at hst
      obtain ⟨h1, h2, h3, h4⟩ := hst
      show AInv (tokStep tO p _ chr)
      simp only [tokStep]
      by_cases htok : isTokenO chr = true
      · rw [if_pos htok]
        exact ⟨hne, by dsimp only [AInv]; omega⟩
      · rw [if_neg htok]
        by_cases heq : chr = some '='
        · rw [if_pos heq]
          exact ⟨hne, by dsimp only [AInv]; omega⟩
        · rw [if_neg heq]
          by_cases hpw : p = true ∧ isOWSO chr = true
          · rw [if_pos hpw]
            exact ⟨hne, by dsimp only [AInv]; omega⟩
          · rw [if_neg hpw]
            by_cases hps : p = true ∧ chr = some ';'
            · rw [if_pos hps]
              exact ⟨hne, by dsimp only [AInv]; omega⟩
            · rw [if_neg hps]
              by_cases hpc : p = true ∧ (chr = some ',' ∨ chr = none)
              · rw [if_pos hpc]
                dsimp only [ASt.reset, AInv]
                exact ⟨emit_ne tO hne h1 h2 h3 h4, trivial⟩
              · rw [if_neg hpc]
                exact ⟨hne, trivial⟩
  | parameterNameEnd =>
      simp only [AInv] at hst
      obtain ⟨h1, h2, h3, h4⟩ := hst
      show AInv (tokStep tO p _ chr)
      simp only [tokStep]
      by_cases hows : isOWSO chr = true
      · rw [if_pos hows]
        exact ⟨hne, by dsimp only [AInv]; omega⟩
      · rw [if_neg hows]
        by_cases hsc : chr = some ';'
        · rw [if_pos hsc]
          exact ⟨hne, by dsimp only [AInv]; omega⟩
        · rw [if_neg hsc]
          by_cases heq : chr = some '='
          · rw [if_pos heq]
            subst heq
            refine ⟨hne, ?_⟩
            dsimp only [AInv]
            cases p <;> simp <;> omega
          · rw [if_neg heq]
            by_cases hcm : chr = some ',' ∨ chr = none
            · rw [if_pos hcm]
              dsimp only [ASt.reset, AInv]
              exact ⟨emit_ne tO hne h1 h2 h3 h4, trivial⟩
            · rw [if_neg hcm]
              exact ⟨hne, by dsimp only [AInv]; omega⟩
  | parameterValueStart =>
      simp only [AInv] at hst
      obtain ⟨h1, h2, h3, h4⟩ := hst
      show AInv (tokStep tO p _ chr)
      simp only [tokStep]
      by_cases htok : isTokenO chr = true
      · rw [if_pos htok]
        exact ⟨hne, by dsimp only [AInv]; omega⟩
      · rw [if_neg htok]
        by_cases hq : chr = some '"'
        · rw [if_pos hq]
          exact ⟨hne, by dsimp only [AInv]; omega⟩
        · rw [if_neg hq]
          by_cases hpw : p = true ∧ isOWSO chr = true
          · rw [if_pos hpw]
            exact ⟨hne, by dsimp only [AInv]; omega⟩
          · rw [if_neg hpw]
            by_cases hps : p = true ∧ chr = some ';'
            · rw [if_pos hps]
              exact ⟨hne, by dsimp only [AInv]; omega⟩
            · rw [if_neg hps]
              by_cases hpc : p = true ∧ (chr = some ',' ∨ chr = none)
              · rw [if_pos hpc]
                dsimp only [ASt.reset, AInv]
                exact ⟨emit_ne tO hne h1 h2 (by omega) (by omega), trivial⟩
              · rw [if_neg hpc]
                exact ⟨hne, trivial⟩
  | parameterValue =>
      simp only [AInv] at hst
      obtain ⟨h1, h2, h3, h4⟩ := hst
      show AInv (tokStep tO p _ chr)
      simp only [tokStep]
      by_cases htok : isTokenO chr = true
      · rw [if_pos htok]
        exact ⟨hne, by dsimp only [AInv]; omega⟩
      · rw [if_neg htok]
        by_cases hsc : chr = some ';'
        · rw [if_pos hsc]
          exact ⟨hne, by dsimp only [AInv]; omega⟩
        · rw [if_neg hsc]
          by_cases hcm : chr = some ',' ∨ chr = none
          · rw [if_pos hcm]
            dsimp only [ASt.reset, AInv]
            exact ⟨emit_ne tO hne h1 h2 (by omega) (by omega), trivial⟩
          · rw [if_neg hcm]
            by_cases hows : isOWSO chr = true
            · rw [if_pos hows]
              exact ⟨hne, by dsimp only [AInv]; omega⟩
            · rw [if_neg hows]
              exact ⟨hne, trivial⟩
  | parameterQuoted =>
      simp only [AInv] at hst
      obtain ⟨h1, h2, h3, h4⟩ := hst
      show AInv (tokStep tO p _ chr)
      simp only [tokStep]
      by_cases hpn : p = true ∧ chr = none
      · rw [if_pos hpn]
        dsimp only [ASt.reset, AInv]
        exact ⟨emit_ne tO hne h1 h2 (by omega) (by omega), trivial⟩
      · rw [if_neg hpn]
        by_cases hcont : chr ≠ some '"' ∨ acc.getLast? = some '\\'
        · rw [if_pos hcont]
          exact ⟨hne, by dsimp only [AInv]; omega⟩
        · rw [if_neg hcont]
          push_neg at hcont
          obtain ⟨hq, _⟩ := hcont
          subst hq
          exact ⟨hne, by dsimp only [AInv]; simp; omega⟩

theorem tokFold_inv (tO p : Bool) (l : List Char) (st : ASt)
    (h : AInv st) : AInv (tokFold tO p st l) := by
  induction l generalizing st with
  | nil => exact h
  | cons c rest ih => exact ih _ (tokStep_inv tO p st (some c) h)

/-- Scanning only optional whitespace from the initial state stays in the
initial state and emits nothing. -/
theorem tokFold_ows (tO p : Bool) (l : List Char) (hl : OWSRun l)
    (acc : List Char) (te pe : Nat) (ts : List (List Char)) :
    ∃ acc', tokFold tO p ⟨.initial, acc, te, pe, ts⟩ l = ⟨.initial, acc', te, pe, ts⟩ := by
  induction l generalizing acc with
  | nil => exact ⟨acc, rfl⟩
  | cons c rest ih =>
      have hc : isOWS c = true := hl c (by simp)
      have hstep : tokStep tO p ⟨.initial, acc, te, pe, ts⟩ (some c)
          = ⟨.initial, acc ++ [c], te, pe, ts⟩ := by
        show _ = ASt.mk .initial (acc ++ (some c).toList) te pe ts
        simp only [tokStep]
        rw [if_pos (Or.inl (by simpa [isOWSO] using hc))]
      show ∃ acc', tokFold tO p (tokStep tO p ⟨.initial, acc, te, pe, ts⟩ (some c)) rest = _
      rw [hstep]
      exact ih (fun d hd => hl d (by simp [hd])) (acc ++ [c])

/-- C9: `parseAcceptHeader` is total by construction (the embedding is a
total function for every input and flag combination, mirroring a source
loop with no throw); the empty and every whitespace-only input yield the
empty sequence; and no output entry is ever the empty string — in
particular trailing or consecutive commas contribute no empty entries
(e.g. `",,a/b,,"`). -/
theorem claim9_tokenizer_total_no_empty_entries :
    (∀ tO p, parseAcceptHeader [] tO p = [])
    ∧ (∀ (s : List Char) tO p, (∀ c ∈ s, isOWS c = true) → parseAcceptHeader s tO p = [])
    ∧ (∀ (s : List Char) tO p t, t ∈ parseAcceptHeader s tO p → t ≠ [])
    ∧ parseAcceptHeader ",,a/b,,".toList false false = ["a/b".toList] := by
  refine ⟨?_, ?_, ?_, by decide⟩
  · intro tO p
    cases tO <;> cases p <;> decide
  · intro s tO p hs
    unfold parseAcceptHeader tokFinal
    obtain ⟨acc', hfold⟩ := tokFold_ows tO p s hs [] 0 0 []
    show (tokStep tO p (tokFold tO p tokInit s) none).types = []
    rw [show tokInit = ⟨.initial, [], 0, 0, []⟩ from rfl, hfold]
    simp only [tokStep]
    rw [if_neg (by simp [isOWSO]), if_neg (by simp [isTokenO])]
  · intro s tO p t ht
    have h0 : AInv tokInit := ⟨(by intro t ht; cases ht), trivial⟩
    have h1 := tokFold_inv tO p s tokInit h0
    have h2 := tokStep_inv tO p (tokFold tO p tokInit s) none h1
    exact h2.1 t ht

/-- Witness for C9 at concrete inputs. -/
theorem claim9_witness :
    parseAcceptHeader "  \t ".toList false false = []
    ∧ "text/html".toList ≠ ([] : List Char) :=
  ⟨claim9_tokenizer_total_no_empty_entries.2.1 "  \t ".toList false false (by decide),
    claim9_tokenizer_total_no_empty_entries.2.2.1 "text/html,,".toList false false
      "text/html".toList (by decide)⟩

/-! ## Claim C8 -/

/-- `SubSegs ts s` holds when the strings `ts` occur in `s`, in order, as
pairwise disjoint contiguous substrings. -/
inductive SubSegs : List (List Char) → List Char → Prop where
  | nil : ∀ s, SubSegs [] s
  | cons : ∀ t ts rest, SubSegs ts rest → SubSegs (t :: ts) (t ++ rest)
  | drop : ∀ c ts rest, SubSegs ts rest → SubSegs ts (c :: rest)

theorem SubSegs.append_right {ts : List (List Char)} {u : List Char}
    (h : SubSegs ts u) (v : List Char) : SubSegs ts (u ++ v) := by
  induction h with
  | nil s => exact .nil _
  | cons t ts rest _ ih =>
      rw [List.append_assoc]
      exact .cons _ _ _ ih
  | drop c ts rest _ ih =>
      show SubSegs _ (c :: (rest ++ v))
      exact .drop _ _ _ ih

theorem SubSegs.one (s t r : List Char) : SubSegs [t] (s ++ (t ++ r)) := by
  induction s with
  | nil => exact .cons _ _ _ (.nil r)
  | cons c s ih => exact .drop _ _ _ ih

theorem SubSegs.emit {ts : List (List Char)} {u : List Char}
    (h : SubSegs ts u) (t r : List Char) : SubSegs (ts ++ [t]) (u ++ (t ++ r)) := by
  induction h with
  | nil s => exact SubSegs.one s t r
  | cons t' ts rest _ ih =>
      rw [List.cons_append, List.append_assoc]
      exact .cons _ _ _ ih
  | drop c ts rest _ ih =>
      show SubSegs _ (c :: (rest ++ (t ++ r)))
      exact .drop _ _ _ ih

theorem emit_subsegs {types : List (List Char)} {u acc consumed : List Char} {K : Nat}
    (hcons : consumed = u ++ acc) (hsub : SubSegs types u) (t : List Char) :
    SubSegs (types ++ [acc.take K]) (consumed ++ t) := by
  subst hcons
  have he := SubSegs.emit hsub (acc.take K) (acc.drop K ++ t)
  have heq : (u ++ acc) ++ t = u ++ (acc.take K ++ (acc.drop K ++ t)) := by
    rw [List.append_assoc, ← List.append_assoc (acc.take K) (acc.drop K) t,
      List.take_append_drop]
  rw [heq]
  exact he

/-- The order-preservation invariant of the accept-header scan: the entries
emitted so far occur, in order, as disjoint substrings of the consumed
input before the span of the entry currently in progress. -/
def TOrd (consumed : List Char) (st : ASt) : Prop :=
  match st.state with
  | .initial => SubSegs st.types consumed
  | .invalid => SubSegs st.types consumed
  | _ => ∃ u, consumed = u ++ st.acc ∧ SubSegs st.types u

theorem tokStep_ord (tO p : Bool) (st : ASt) (chr : Option Char) (consumed : List Char)
    (h : TOrd consumed st) : TOrd (consumed ++ chr.toList) (tokStep tO p st chr) := by
  obtain ⟨state, acc, teLen, peLen, types⟩ := st
  cases state with
  | invalid =>
      simp only [TOrd] at h
      show TOrd _ (tokStep tO p _ chr)
      simp only [tokStep]
      by_cases hc : chr = some ','
      · rw [if_pos hc]
        exact h.append_right _
      · rw [if_neg hc]
        exact h.append_right _
  | initial =>
      simp only [TOrd] at h
      show TOrd _ (tokStep tO p _ chr)
      simp only [tokStep]
      by_cases hc1 : isOWSO chr = true ∨ chr = some ','
      · rw [if_pos hc1]
        exact h.append_right _
      · rw [if_neg hc1]
        by_cases htok : isTokenO chr = true
        · rw [if_pos htok]
          exact ⟨consumed, rfl, h⟩
        · rw [if_neg htok]
          exact h.append_right _
  | typ =>
      simp only [TOrd] at h
      obtain ⟨u, hcons, hsub⟩ := h
      show TOrd _ (tokStep tO p _ chr)
      simp only [tokStep]
      by_cases htok : isTokenO chr = true
      · rw [if_pos htok]
        exact ⟨u, by rw [hcons, List.append_assoc], hsub⟩
      · rw [if_neg htok]
        by_cases hsl : chr = some '/'
        · rw [if_pos hsl]
          exact ⟨u, by rw [hcons, List.append_assoc], hsub⟩
        · rw [if_neg hsl]
          by_cases hcm : chr = some ','
          · rw [if_pos hcm]
            dsimp only [TOrd]
            rw [hcons, List.append_assoc]
            exact hsub.append_right _
          · rw [if_neg hcm]
            dsimp only [TOrd]
            rw [hcons, List.append_assoc]
            exact hsub.append_right _
  | subtypeStart =>
      simp only [TOrd] at h
      obtain ⟨u, hcons, hsub⟩ := h
      show TOrd _ (tokStep tO p _ chr)
      simp only [tokStep]
      by_cases htok : isTokenO chr = true
      · rw [if_pos htok]
        exact ⟨u, by rw [hcons, List.append_assoc], hsub⟩
      · rw [if_neg htok]
        by_cases hpw : p = true ∧ isOWSO chr = true
        · rw [if_pos hpw]
          exact ⟨u, by rw [hcons, List.append_assoc], hsub⟩
        · rw [if_neg hpw]
          by_cases hcm : chr = some ','
          · rw [if_pos hcm]
            dsimp only [TOrd]
            rw [hcons, List.append_assoc]
            exact hsub.append_right _
          · rw [if_neg hcm]
            dsimp only [TOrd]
            rw [hcons, List.append_assoc]
            exact hsub.append_right _
  | subtype =>
      simp only [TOrd] at h
      obtain ⟨u, hcons, hsub⟩ := h
      show TOrd _ (tokStep tO p _ chr)
      simp only [tokStep]
      by_cases htok : isTokenO chr = true
      · rw [if_pos htok]
        exact ⟨u, by rw [hcons, List.append_assoc], hsub⟩
      · rw [if_neg htok]
        by_cases hcm : chr = some ',' ∨ chr = none
        · rw [if_pos hcm]
          dsimp only [ASt.reset, TOrd]
          exact emit_subsegs hcons hsub _
        · rw [if_neg hcm]
          by_cases hsc : chr = some ';'
          · rw [if_pos hsc]
            exact ⟨u, by rw [hcons, List.append_assoc], hsub⟩
          · rw [if_neg hsc]
            by_cases hows : isOWSO chr = true
            · rw [if_pos hows]
              exact ⟨u, by rw [hcons, List.append_assoc], hsub⟩
            · rw [if_neg hows]
              dsimp only [TOrd]
              rw [hcons, List.append_assoc]
              exact hsub.append_right _
  | subtypeEnd =>
      simp only [TOrd] at h
      obtain ⟨u, hcons, hsub⟩ := h
      show TOrd _ (tokStep tO p _ chr)
      simp only [tokStep]
      by_cases hcm : chr = some ',' ∨ chr = none
      · rw [if_pos hcm]
        dsimp only [ASt.reset, TOrd]
        exact emit_subsegs hcons hsub _
      · rw [if_neg hcm]
        by_cases hsc : chr = some ';'
        · rw [if_pos hsc]
          exact ⟨u, by rw [hcons, List.append_assoc], hsub⟩
        · rw [if_neg hsc]
          by_cases hows : isOWSO chr = true
          · rw [if_pos hows]
            exact ⟨u, by rw [hcons, List.append_assoc], hsub⟩
          · rw [if_neg hows]
            dsimp only [TOrd]
            rw [hcons, List.append_assoc]
            exact hsub.append_right _
  | paramsStart =>
      simp only [TOrd] at h
      obtain ⟨u, hcons, hsub⟩ := h
      show TOrd _ (tokStep tO p _ chr)
      simp only [tokStep]
      by_cases htok : isTokenO chr = true
      · rw [if_pos htok]
        exact ⟨u, by rw [hcons, List.append_assoc], hsub⟩
      · rw [if_neg htok]
        by_cases hc1 : isOWSO chr = true ∨ chr = some ';'
        · rw [if_pos hc1]
          exact ⟨u, by rw [hcons, List.append_assoc], hsub⟩
        · rw [if_neg hc1]
          by_cases hcm : chr = some ',' ∨ chr = none
          · rw [if_pos hcm]
            dsimp only [ASt.reset, TOrd]
            exact emit_subsegs hcons hsub _
          · rw [if_neg hcm]
            dsimp only [TOrd]
            rw [hcons, List.append_assoc]
            exact hsub.append_right _
  | parameterName =>
      simp only [TOrd] at h
      obtain ⟨u, hcons, hsub⟩ := h
      show TOrd _ (tokStep tO p _ chr)
      simp only [tokStep]
      by_cases htok : isTokenO chr = true
      · rw [if_pos htok]
        exact ⟨u, by rw [hcons, List.append_assoc], hsub⟩
      · rw [if_neg htok]
        by_cases heq : chr = some '='
        · rw [if_pos heq]
          exact ⟨u, by rw [hcons, List.append_assoc], hsub⟩
        · rw [if_neg heq]
          by_cases hpw : p = true ∧ isOWSO chr = true
          · rw [if_pos hpw]
            exact ⟨u, by rw [hcons, List.append_assoc], hsub⟩
          · rw [if_neg hpw]
            by_cases hps : p = true ∧ chr = some ';'
            · rw [if_pos hps]
              exact ⟨u, by rw [hcons, List.append_assoc], hsub⟩
            · rw [if_neg hps]
              by_cases hpc : p = true ∧ (chr = some ',' ∨ chr = none)
              · rw [if_pos hpc]
                dsimp only [ASt.reset, TOrd]
                exact emit_subsegs hcons hsub _
              · rw [if_neg hpc]
                dsimp only [TOrd]
                rw [hcons, List.append_assoc]
                exact hsub.append_right _
  | parameterNameEnd =>
      simp only [TOrd] at h
      obtain ⟨u, hcons, hsub⟩ := h
      show TOrd _ (tokStep tO p _ chr)
      simp only [tokStep]
      by_cases hows : isOWSO chr = true
      · rw [if_pos hows]
        exact ⟨u, by rw [hcons, List.append_assoc], hsub⟩
      · rw [if_neg hows]
        by_cases hsc : chr = some ';'
        · rw [if_pos hsc]
          exact ⟨u, by rw [hcons, List.append_assoc], hsub⟩
        · rw [if_neg hsc]
          by_cases heq : chr = some '='
          · rw [if_pos heq]
            exact ⟨u, by rw [hcons, List.append_assoc], hsub⟩
          · rw [if_neg heq]
            by_cases hcm : chr = some ',' ∨ chr = none
            · rw [if_pos hcm]
              dsimp only [ASt.reset, TOrd]
              exact emit_subsegs hcons hsub _
            · rw [if_neg hcm]
              exact ⟨u, by rw [hcons, List.append_assoc], hsub⟩
  | parameterValueStart =>
      simp only [TOrd] at h
      obtain ⟨u, hcons, hsub⟩ := h
      show TOrd _ (tokStep tO p _ chr)
      simp only [tokStep]
      by_cases htok : isTokenO chr = true
      · rw [if_pos htok]
        exact ⟨u, by rw [hcons, List.append_assoc], hsub⟩
      · rw [if_neg htok]
        by_cases hq : chr = some '"'
        · rw [if_pos hq]
          exact ⟨u, by rw [hcons, List.append_assoc], hsub⟩
        · rw [if_neg hq]
          by_cases hpw : p = true ∧ isOWSO chr = true
          · rw [if_pos hpw]
            exact ⟨u, by rw [hcons, List.append_assoc], hsub⟩
          · rw [if_neg hpw]
            by_cases hps : p = true ∧ chr = some ';'
            · rw [if_pos hps]
              exact ⟨u, by rw [hcons, List.append_assoc], hsub⟩
            · rw [if_neg hps]
              by_cases hpc : p = true ∧ (chr = some ',' ∨ chr = none)
              · rw [if_pos hpc]
                dsimp only [ASt.reset, TOrd]
                exact emit_subsegs hcons hsub _
              · rw [if_neg hpc]
                dsimp only [TOrd]
                rw [hcons, List.append_assoc]
                exact hsub.append_right _
  | parameterValue =>
      simp only [TOrd] at h
      obtain ⟨u, hcons, hsub⟩ := h
      show TOrd _ (tokStep tO p _ chr)
      simp only [tokStep]
      by_cases htok : isTokenO chr = true
      · rw [if_pos htok]
        exact ⟨u, by rw [hcons, List.append_assoc], hsub⟩
      · rw [if_neg htok]
        by_cases hsc : chr = some ';'
        · rw [if_pos hsc]
          exact ⟨u, by rw [hcons, List.append_assoc], hsub⟩
        · rw [if_neg hsc]
          by_cases hcm : chr = some ',' ∨ chr = none
          · rw [if_pos hcm]
            dsimp only [ASt.reset, TOrd]
            exact emit_subsegs hcons hsub _
          · rw [if_neg hcm]
            by_cases hows : isOWSO chr = true
            · rw [if_pos hows]
              exact ⟨u, by rw [hcons, List.append_assoc], hsub⟩
            · rw [if_neg hows]
              dsimp only [TOrd]
              rw [hcons, List.append_assoc]
              exact hsub.append_right _
  | parameterQuoted =>
      simp only [TOrd] at h
      obtain ⟨u, hcons, hsub⟩ := h
      show TOrd _ (tokStep tO p _ chr)
      simp only [tokStep]
      by_cases hpn : p = true ∧ chr = none
      · rw [if_pos hpn]
        dsimp only [ASt.reset, TOrd]
        exact emit_subsegs hcons hsub _
      · rw [if_neg hpn]
        by_cases hcont : chr ≠ some '"' ∨ acc.getLast? = some '\\'
        · rw [if_pos hcont]
          exact ⟨u, by rw [hcons, List.append_assoc], hsub⟩
        · rw [if_neg hcont]
          exact ⟨u, by rw [hcons, List.append_assoc], hsub⟩

theorem tokFold_ord (tO p : Bool) (l : List Char) (st : ASt) (consumed : List Char)
    (h : TOrd consumed st) : TOrd (consumed ++ l) (tokFold tO p st l) := by
  induction l generalizing st consumed with
  | nil => simpa using h
  | cons c rest ih =>
      have hstep := tokStep_ord tO p st (some c) consumed h
      have := ih (tokStep tO p st (some c)) (consumed ++ [c]) hstep
      simpa using this

theorem TOrd.weaken {consumed : List Char} {st : ASt} (h : TOrd consumed st) :
    SubSegs st.types consumed := by
  unfold TOrd at h
  rcases hst : st.state <;> rw [hst] at h
  all_goals
    first
    | exact h
    | · obtain ⟨u, hcons, hsub⟩ := h
        rw [hcons]
        exact hsub.append_right _

/-- C8 counterexample to the recovery clause as stated: in the strict input
`"a/b;q, c/d"`, the character that aborts the first entry is the separating
comma itself (a bare parameter name followed by `','` is unrecoverable in
strict mode); the scan consumes that comma while entering the invalid state
and only resumes at a comma strictly after it — there is none — so the
well-formed entry `"c/d"` after the malformed one is also discarded, and
the output is `[]` rather than containing `"c/d"` (which tokenizes fine on
its own). -/
theorem claim8_counterexample_entry_after_malformed_dropped :
    parseAcceptHeader "a/b;q, c/d".toList false false = []
    ∧ parseAcceptHeader "c/d".toList false false = ["c/d".toList] := by
  exact ⟨by decide, by decide⟩

/-- C8 as amended: for every input and flag combination the emitted entries
occur in the output in the same left-to-right order as in the input — they
occupy disjoint, ordered substrings of it — and the output is never
reordered by weight; recovery resumes at the first comma strictly after the
unrecoverable character, so entries before a malformed entry are preserved
(`"application/json, bad@@type, text/plain"`), but when the unrecoverable
character is the separating comma itself the entry immediately after is
also discarded (`"a/b;q, c/d"` yields `[]`). -/
theorem claim8_output_order_and_recovery :
    (∀ (accept : List Char) tO p, SubSegs (parseAcceptHeader accept tO p) accept)
    ∧ parseAcceptHeader "application/json, bad@@type, text/plain".toList false false
        = ["application/json".toList, "text/plain".toList]
    ∧ parseAcceptHeader "a/b;q, c/d".toList false false = [] := by
  refine ⟨?_, by decide, by decide⟩
  intro accept tO p
  have h0 : TOrd [] tokInit := SubSegs.nil []
  have h1 := tokFold_ord tO p accept tokInit [] h0
  have h2 := tokStep_ord tO p (tokFold tO p tokInit accept) none (accept)
    (by simpa using h1)
  have h3 := h2.weaken
  simpa using h3

/-! ## Sorting lemmas (claims C3 and C4) -/

theorem sInsert_mem {α : Type} (cmp : α → α → Int) (x : α) (l : List α) (y : α) :
    y ∈ sInsert cmp x l ↔ y = x ∨ y ∈ l := by
  induction l with
  | nil => simp [sInsert]
  | cons z zs ih =>
      unfold sInsert
      by_cases hc : cmp x z < 0
      · rw [if_pos hc]
        simp only [List.mem_cons]
      · rw [if_neg hc]
        simp only [List.mem_cons, ih]
        tauto

theorem foldl_sInsert_mem {α : Type} (cmp : α → α → Int) (l acc : List α) (y : α) :
    y ∈ l.foldl (fun acc x => sInsert cmp x acc) acc ↔ y ∈ acc ∨ y ∈ l := by
  induction l generalizing acc with
  | nil => simp
  | cons z zs ih =>
      simp only [List.foldl_cons, ih, sInsert_mem, List.mem_cons]
      tauto

theorem sortJS_mem {α : Type} (cmp : α → α → Int) (l : List α) (y : α) :
    y ∈ sortJS cmp l ↔ y ∈ l := by
  unfold sortJS
  rw [foldl_sInsert_mem]
  simp

theorem sInsert_sorted {α : Type} {cmp : α → α → Int}
    (hneg : ∀ a b, cmp b a = -cmp a b)
    (htrans : ∀ a b c, cmp a b ≤ 0 → cmp b c ≤ 0 → cmp a c ≤ 0)
    (x : α) (l : List α) (hl : l.Pairwise (fun a b => cmp a b ≤ 0)) :
    (sInsert cmp x l).Pairwise (fun a b => cmp a b ≤ 0) := by
  induction l with
  | nil => simp [sInsert]
  | cons z zs ih =>
      rw [List.pairwise_cons] at hl
      obtain ⟨hz, hzs⟩ := hl
      unfold sInsert
      by_cases hc : cmp x z < 0
      · rw [if_pos hc]
        rw [List.pairwise_cons]
        refine ⟨?_, by rw [List.pairwise_cons]; exact ⟨hz, hzs⟩⟩
        intro y hy
        rcases List.mem_cons.mp hy with rfl | hy
        · exact le_of_lt hc
        · exact htrans x z y (le_of_lt hc) (hz y hy)
      · rw [if_neg hc]
        rw [List.pairwise_cons]
        refine ⟨?_, ih hzs⟩
        intro y hy
        rcases (sInsert_mem cmp x zs y).mp hy with rfl | hy
        · have := hneg y z
          omega
        · exact hz y hy

theorem sortJS_sorted {α : Type} {cmp : α → α → Int}
    (hneg : ∀ a b, cmp b a = -cmp a b)
    (htrans : ∀ a b c, cmp a b ≤ 0 → cmp b c ≤ 0 → cmp a c ≤ 0)
    (l : List α) : (sortJS cmp l).Pairwise (fun a b => cmp a b ≤ 0) := by
  unfold sortJS
  suffices h : ∀ acc, acc.Pairwise (fun a b => cmp a b ≤ 0) →
      (l.foldl (fun acc x => sInsert cmp x acc) acc).Pairwise (fun a b => cmp a b ≤ 0) by
    exact h [] (by simp)
  induction l with
  | nil => intro acc hacc; exact hacc
  | cons z zs ih =>
      intro acc hacc
      exact ih _ (sInsert_sorted hneg htrans z acc hacc)

theorem sortJS_head_min {α : Type} {cmp : α → α → Int}
    (hneg : ∀ a b, cmp b a = -cmp a b)
    (htrans : ∀ a b c, cmp a b ≤ 0 → cmp b c ≤ 0 → cmp a c ≤ 0)
    (l : List α) {h : α} {t : List α} (heq : sortJS cmp l = h :: t) :
    h ∈ l ∧ ∀ x ∈ l, cmp h x ≤ 0 := by
  have hmem : h ∈ l := by
    rw [← sortJS_mem cmp l h, heq]
    simp
  refine ⟨hmem, ?_⟩
  intro x hx
  have hx' : x ∈ h :: t := by
    rw [← heq, sortJS_mem]
    exact hx
  rcases List.mem_cons.mp hx' with rfl | hx'
  · have := hneg x x
    omega
  · have hs := sortJS_sorted hneg htrans l
    rw [heq, List.pairwise_cons] at hs
    exact hs.1 x hx'

/-! ## Claim C3 -/

theorem firstOverlapIdx_none_iff (e : MediaType) (avail : List MediaType) :
    firstOverlapIdx e avail = none ↔ ∀ a ∈ avail, mtOverlaps e a = false := by
  induction avail with
  | nil => simp [firstOverlapIdx]
  | cons a rest ih =>
      unfold firstOverlapIdx
      by_cases hov : mtOverlaps e a = true
      · rw [if_pos hov]
        simp [hov]
      · rw [if_neg hov]
        simp only [Option.map_eq_none', ih, List.mem_cons]
        constructor
        · intro h b hb
          rcases hb with rfl | hb
          · simpa using hov
          · exact h b hb
        · intro h b hb
          exact h b (Or.inr hb)

theorem firstOverlapIdx_some_spec (e : MediaType) (avail : List MediaType) (i : Nat)
    (h : firstOverlapIdx e avail = some i) :
    ∃ a, avail.get? i = some a ∧ mtOverlaps e a = true
      ∧ ∀ j, j < i → ∀ b, avail.get? j = some b → mtOverlaps e b = false := by
  induction avail generalizing i with
  | nil => exact absurd h (by simp [firstOverlapIdx])
  | cons a rest ih =>
      unfold firstOverlapIdx at h
      by_cases hov : mtOverlaps e a = true
      · rw [if_pos hov] at h
        injection h with h
        subst h
        exact ⟨a, rfl, hov, fun j hj => absurd hj (by omega)⟩
      · rw [if_neg hov] at h
        rw [Option.map_eq_some'] at h
        obtain ⟨i', hi', rfl⟩ := h
        obtain ⟨b, hb, hbov, hmin⟩ := ih i' hi'
        refine ⟨b, by simpa using hb, hbov, ?_⟩
        intro j hj c hc
        cases j with
        | zero =>
            simp only [List.get?_cons_zero, Option.some_inj] at hc
            subst hc
            simpa using hov
        | succ j =>
            simp only [List.get?_cons_succ] at hc
            exact hmin j (by omega) c hc

theorem mem_overlappingTypes_iff (avail : List MediaType)
    (entries : List (MediaType × Nat)) (e : MediaType × Nat) (i : Nat) :
    (e, i) ∈ overlappingTypes avail entries
      ↔ e ∈ entries ∧ firstOverlapIdx e.1 avail = some i := by
  unfold overlappingTypes
  rw [List.mem_filterMap]
  constructor
  · rintro ⟨e', he', hf⟩
    rw [Option.map_eq_some'] at hf
    obtain ⟨i', hi', heq⟩ := hf
    injection heq with h1 h2
    subst h1
    subst h2
    exact ⟨he', hi'⟩
  · rintro ⟨he, hf⟩
    exact ⟨e, he, by simp [hf]⟩

/-- C3: within a `negotiate` call whose weighted, `q=0`-filtered,
weight-sorted accept entries are `sorted`, the first-pass filter keeps an
entry exactly when it overlaps at least one available type (exact
normalised `type/subtype` equality, wildcard subtype with equal type, or
full wildcard — the `mtOverlaps` disjunction); every kept entry is
associated with the first available type, in available-list order, that it
overlaps (no earlier available type overlaps it); and when no entry
overlaps any available type the call returns no-match (`null`). -/
theorem claim3_overlap_filter_first_association (n : Negotiator)
    (accept : List Char) (permissive : Bool) (sorted : List (MediaType × Nat))
    (h2 : acceptEntries permissive accept = some sorted) :
    (∀ e, (∃ i, (e, i) ∈ overlappingTypes n.parsedAvailableTypes sorted)
        ↔ (e ∈ sorted ∧ ∃ a ∈ n.parsedAvailableTypes, mtOverlaps e.1 a = true))
    ∧ (∀ e i, (e, i) ∈ overlappingTypes n.parsedAvailableTypes sorted →
        ∃ a, n.parsedAvailableTypes.get? i = some a ∧ mtOverlaps e.1 a = true
          ∧ ∀ j, j < i → ∀ b, n.parsedAvailableTypes.get? j = some b →
              mtOverlaps e.1 b = false)
    ∧ ((∀ e ∈ sorted, ∀ a ∈ n.parsedAvailableTypes, mtOverlaps e.1 a = false) →
        accept ≠ [] → negotiate n (some accept) permissive = .ok none) := by
  refine ⟨?_, ?_, ?_⟩
  · intro e
    constructor
    · rintro ⟨i, hi⟩
      obtain ⟨he, hf⟩ := (mem_overlappingTypes_iff _ _ _ _).mp hi
      obtain ⟨a, ha, hov, _⟩ := firstOverlapIdx_some_spec _ _ _ hf
      exact ⟨he, a, List.get?_mem ha, hov⟩
    · rintro ⟨he, a, ha, hov⟩
      rcases hf : firstOverlapIdx e.1 n.parsedAvailableTypes with _ | i
      · rw [firstOverlapIdx_none_iff] at hf
        rw [hf a ha] at hov
        cases hov
      · exact ⟨i, (mem_overlappingTypes_iff _ _ _ _).mpr ⟨he, hf⟩⟩
  · intro e i hi
    obtain ⟨he, hf⟩ := (mem_overlappingTypes_iff _ _ _ _).mp hi
    exact firstOverlapIdx_some_spec _ _ _ hf
  · intro hno hne
    have hempty : overlappingTypes n.parsedAvailableTypes sorted = [] := by
      unfold overlappingTypes
      rw [List.filterMap_eq_nil_iff]
      intro e he
      rw [Option.map_eq_none']
      rw [firstOverlapIdx_none_iff]
      exact hno e he
    unfold negotiate
    by_cases hav : n.availableMediaTypes.isEmpty = true
    · rw [if_pos hav]
    · rw [if_neg hav]
      cases accept with
      | nil => exact absurd rfl hne
      | cons c cs =>
          show (match acceptEntries permissive (c :: cs) with
            | none => Except.error ()
            | some sorted =>
              let over := overlappingTypes n.parsedAvailableTypes sorted
              if over.isEmpty = true then Except.ok none
              else
                let kept := keepHighestQ over
                let ranked := sortJS (specCmp n.parsedAvailableTypes) kept
                match ranked.head? with
                | none => Except.ok none
                | some w => Except.ok (n.availableMediaTypes.get? w.2)) = Except.ok none
          rw [h2]
          simp only [hempty]
          rfl

/-- Witness for C3: `available = ["application/json"]`, strict accept
`"text/html"` — no overlap, so negotiate returns no-match. -/
theorem claim3_witness :
    negotiate ⟨["application/json".toList],
        [⟨"application".toList, "json".toList, []⟩]⟩
      (some "text/html".toList) false = .ok none :=
  (claim3_overlap_filter_first_association
      ⟨["application/json".toList], [⟨"application".toList, "json".toList, []⟩]⟩
      "text/html".toList false
      [(⟨"text".toList, "html".toList, []⟩, 1000)] (by decide)).2.2
    (by decide) (by decide)

/-! ## Claim C4 -/

def b2i (b : Bool) : Int := if b then 1 else 0

/-- The comparison key realised by the specificity comparator: wildcard
type, then wildcard subtype, then negated shared-parameter count, then
associated available index, compared lexicographically. -/
def specKey (avail : List MediaType) (x : (MediaType × Nat) × Nat) :
    Int × Int × Int × Int :=
  (b2i (x.1.1.type == ['*']), b2i (x.1.1.subtype == ['*']),
    -((findOverlappingParams x.1.1 (avail.getD x.2 default)).length : Int),
    (x.2 : Int))

/-- Lexicographic comparison of two four-component integer keys. -/
def cmp4 (a b : Int × Int × Int × Int) : Int :=
  if a.1 ≠ b.1 then a.1 - b.1
  else if a.2.1 ≠ b.2.1 then a.2.1 - b.2.1
  else if a.2.2.1 ≠ b.2.2.1 then a.2.2.1 - b.2.2.1
  else a.2.2.2 - b.2.2.2

theorem cmp4_neg (a b : Int × Int × Int × Int) : cmp4 b a = -cmp4 a b := by
  unfold cmp4
  split_ifs <;> omega

theorem cmp4_trans (a b c : Int × Int × Int × Int)
    (h1 : cmp4 a b ≤ 0) (h2 : cmp4 b c ≤ 0) : cmp4 a c ≤ 0 := by
  unfold cmp4 at h1 h2 ⊢
  split_ifs at h1 h2 ⊢ <;> omega

/-- The source's specificity comparator is exactly the lexicographic
comparison of the four-component keys, hence a total preorder. -/
theorem specCmp_eq_cmp4 (avail : List MediaType) (a b : (MediaType × Nat) × Nat) :
    specCmp avail a b = cmp4 (specKey avail a) (specKey avail b) := by
  unfold specCmp cmp4 specKey b2i
  by_cases hA : (a.1.1.type == ['*']) = true <;>
    by_cases hB : (b.1.1.type == ['*']) = true <;>
      by_cases hC : (a.1.1.subtype == ['*']) = true <;>
        by_cases hD : (b.1.1.subtype == ['*']) = true <;>
          simp only [hA, hB, hC, hD, bne, Bool.not_true, Bool.not_false,
            Bool.and_true, Bool.and_false, Bool.true_and, Bool.false_and,
            Bool.false_eq_true, if_true, if_false] <;>
          split_ifs <;> omega

theorem specCmp_neg (avail : List MediaType) (a b : (MediaType × Nat) × Nat) :
    specCmp avail b a = -specCmp avail a b := by
  rw [specCmp_eq_cmp4, specCmp_eq_cmp4]
  exact cmp4_neg _ _

theorem specCmp_trans (avail : List MediaType) (a b c : (MediaType × Nat) × Nat)
    (h1 : specCmp avail a b ≤ 0) (h2 : specCmp avail b c ≤ 0) :
    specCmp avail a c ≤ 0 := by
  rw [specCmp_eq_cmp4] at h1 h2 ⊢
  exact cmp4_trans _ _ _ h1 h2

theorem mapOrThrow_length {α β : Type} {f : α → Option β} :
    ∀ {l : List α} {l' : List β}, mapOrThrow f l = some l' → l'.length = l.length := by
  intro l
  induction l with
  | nil =>
      intro l' h
      simp only [mapOrThrow, Option.some_inj] at h
      subst h
      rfl
  | cons a t ih =>
      intro l' h
      unfold mapOrThrow at h
      rcases hf : f a with _ | b
      · rw [hf] at h
        cases h
      · rw [hf] at h
        rw [Option.map_eq_some'] at h
        obtain ⟨bs, hbs, rfl⟩ := h
        simp [ih hbs]

theorem negotiateMediaTypeFactory_spec {avail : List (List Char)} {n : Negotiator}
    (h : negotiateMediaTypeFactory avail = some n) :
    n.availableMediaTypes = avail
    ∧ n.parsedAvailableTypes.length = avail.length := by
  unfold negotiateMediaTypeFactory at h
  by_cases he : avail.isEmpty = true
  · rw [if_pos he] at h
    injection h with h
    subst h
    simp only [List.isEmpty_iff] at he
    subst he
    exact ⟨rfl, rfl⟩
  · rw [if_neg he] at h
    rcases hm : mapOrThrow (fun m => (parseMediaType m false).map normaliseMediaType)
        avail with _ | parsed
    · rw [hm] at h
      cases h
    · rw [hm] at h
      injection h with h
      subst h
      exact ⟨rfl, mapOrThrow_length hm⟩

/-- The weight-sorted accept-entry list is weight-descending (stable sort
with the comparator `qb - qa`). -/
theorem acceptEntries_sorted {permissive : Bool} {accept : List Char}
    {sorted : List (MediaType × Nat)}
    (h : acceptEntries permissive accept = some sorted) :
    sorted.Pairwise (fun a b : MediaType × Nat => ((b.2 : Int) - (a.2 : Int)) ≤ 0) := by
  unfold acceptEntries at h
  rw [Option.map_eq_some'] at h
  obtain ⟨l0, _, heq⟩ := h
  subst heq
  exact sortJS_sorted (by intro a b; omega) (by intro a b c hab hbc; omega) _

/-- Weight-descending order carries over to the overlap-filtered list. -/
theorem overlappingTypes_sorted (avail : List MediaType)
    {sorted : List (MediaType × Nat)}
    (h : sorted.Pairwise (fun a b : MediaType × Nat => ((b.2 : Int) - (a.2 : Int)) ≤ 0)) :
    (overlappingTypes avail sorted).Pairwise (fun x y => y.1.2 ≤ x.1.2) := by
  unfold overlappingTypes
  refine List.Pairwise.filterMap _ ?_ h
  intro a a' hr b hb b' hb'
  simp only [Option.mem_def, Option.map_eq_some'] at hb hb'
  obtain ⟨i, _, rfl⟩ := hb
  obtain ⟨i', _, rfl⟩ := hb'
  simpa using by omega

/-- C4: in a `negotiate` call with a nonempty overlap set, the second pass
keeps exactly the maximal-weight prefix — every kept entry carries the
maximum weight `qmax`, the kept list is a prefix of the overlap list, and
every truncated entry has weight strictly below `qmax` — and the winner `w`
is minimal under the total preorder realised by the specificity comparator
(non-wildcard type first, then non-wildcard subtype, then larger count of
shared non-`q` parameters with the associated available type, then earlier
associated available position); the call returns the original
server-provided string stored at the winner's associated index. -/
theorem claim4_max_weight_prefix_and_tiebreak_winner
    (avail : List (List Char)) (n : Negotiator) (accept : List Char)
    (permissive : Bool) (sorted : List (MediaType × Nat))
    (h1 : negotiateMediaTypeFactory avail = some n)
    (h2 : acceptEntries permissive accept = some sorted)
    (hne : accept ≠ [])
    (hover : overlappingTypes n.parsedAvailableTypes sorted ≠ []) :
    ∃ qmax rest w orig,
      (∀ y ∈ overlappingTypes n.parsedAvailableTypes sorted, y.1.2 ≤ qmax)
      ∧ (∀ z ∈ keepHighestQ (overlappingTypes n.parsedAvailableTypes sorted),
          z.1.2 = qmax)
      ∧ overlappingTypes n.parsedAvailableTypes sorted
          = keepHighestQ (overlappingTypes n.parsedAvailableTypes sorted) ++ rest
      ∧ (∀ y ∈ rest, y.1.2 < qmax)
      ∧ w ∈ keepHighestQ (overlappingTypes n.parsedAvailableTypes sorted)
      ∧ (∀ x ∈ keepHighestQ (overlappingTypes n.parsedAvailableTypes sorted),
          specCmp n.parsedAvailableTypes w x ≤ 0)
      ∧ n.availableMediaTypes.get? w.2 = some orig
      ∧ negotiate n (some accept) permissive = .ok (some orig) := by
  obtain ⟨hav, hlen⟩ := negotiateMediaTypeFactory_spec h1
  have hsorted := overlappingTypes_sorted n.parsedAvailableTypes (acceptEntries_sorted h2)
  rcases hov : overlappingTypes n.parsedAvailableTypes sorted with _ | ⟨x, xs⟩
  · exact absurd hov hover
  · rw [hov] at hsorted
    rw [List.pairwise_cons] at hsorted
    obtain ⟨hx, hxs⟩ := hsorted
    have hkept : keepHighestQ (x :: xs) = x :: xs.takeWhile (fun y => y.1.2 == x.1.2) := rfl
    refine ⟨x.1.2, xs.dropWhile (fun y => y.1.2 == x.1.2), ?_⟩
    have hsplit : (x :: xs) = keepHighestQ (x :: xs)
        ++ xs.dropWhile (fun y => y.1.2 == x.1.2) := by
      rw [hkept]
      simp [List.takeWhile_append_dropWhile]
    have hkeptmax : ∀ z ∈ keepHighestQ (x :: xs), z.1.2 = x.1.2 := by
      intro z hz
      rw [hkept] at hz
      rcases List.mem_cons.mp hz with rfl | hz
      · rfl
      · simpa using List.mem_takeWhile_imp hz
    have hdroplt : ∀ y ∈ xs.dropWhile (fun y => y.1.2 == x.1.2), y.1.2 < x.1.2 := by
      intro y hy
      have hsubl : (xs.dropWhile (fun y => y.1.2 == x.1.2)).Pairwise
          (fun a b => b.1.2 ≤ a.1.2) :=
        hxs.sublist (List.dropWhile_sublist _)
      rcases hd : xs.dropWhile (fun y => y.1.2 == x.1.2) with _ | ⟨d, ds⟩
      · rw [hd] at hy
        cases hy
      · have hdhead : (xs.dropWhile (fun y => y.1.2 == x.1.2)).head? = some d := by
          rw [hd]
          rfl
        have hpd := List.head?_dropWhile_not (fun y => y.1.2 == x.1.2) xs
        rw [hdhead] at hpd
        have hdne : d.1.2 ≠ x.1.2 := by simpa using hpd
        have hdmem : d ∈ xs :=
          (List.dropWhile_sublist (fun y => y.1.2 == x.1.2)).mem (by rw [hd]; simp)
        have hdle : (d.1.2 : Int) - (x.1.2 : Int) ≤ 0 := by
          have := hx d hdmem
          omega
        rw [hd] at hsubl
        rw [List.pairwise_cons] at hsubl
        rw [hd] at hy
        rcases List.mem_cons.mp hy with rfl | hy
        · omega
        · have h5 := hsubl.1 y hy
          have hymem : y ∈ xs :=
            (List.dropWhile_sublist (fun y => y.1.2 == x.1.2)).mem (by rw [hd]; simp [hy])
          have := hx y hymem
          omega
    have hxk : x ∈ keepHighestQ (x :: xs) := by
      rw [hkept]
      simp
    rcases hr : sortJS (specCmp n.parsedAvailableTypes) (keepHighestQ (x :: xs))
        with _ | ⟨w, t⟩
    · have : x ∈ sortJS (specCmp n.parsedAvailableTypes) (keepHighestQ (x :: xs)) := by
        rw [sortJS_mem]
        exact hxk
      rw [hr] at this
      cases this
    · obtain ⟨hwmem, hwmin⟩ := sortJS_head_min (specCmp_neg n.parsedAvailableTypes)
        (specCmp_trans n.parsedAvailableTypes) (keepHighestQ (x :: xs)) hr
      have hwover : w ∈ overlappingTypes n.parsedAvailableTypes sorted := by
        rw [hov, hsplit]
        exact List.mem_append.mpr (Or.inl hwmem)
      have hwidx : w.2 < n.parsedAvailableTypes.length := by
        obtain ⟨e, i⟩ := w
        obtain ⟨_, hf⟩ := (mem_overlappingTypes_iff _ _ _ _).mp hwover
        obtain ⟨a, ha, _, _⟩ := firstOverlapIdx_some_spec _ _ _ hf
        exact (List.get?_eq_some.mp ha).1
      have hwidx' : w.2 < n.availableMediaTypes.length := by
        rw [hav]
        rw [hlen] at hwidx
        exact hwidx
      obtain ⟨orig, horig⟩ : ∃ orig, n.availableMediaTypes.get? w.2 = some orig :=
        ⟨_, List.get?_eq_get hwidx'⟩
      refine ⟨w, orig, ?_, hkeptmax, hsplit, hdroplt, hwmem, hwmin, horig, ?_⟩
      · intro y hy
        rcases List.mem_cons.mp hy with rfl | hy
        · exact le_refl _
        · have := hx y hy
          omega
      · have havne : ¬n.availableMediaTypes.isEmpty = true := by
          intro hcontra
          rw [List.isEmpty_iff] at hcontra
          rw [hcontra] at hwidx'
          simp at hwidx'
        unfold negotiate
        rw [if_neg havne]
        cases accept with
        | nil => exact absurd rfl hne
        | cons c cs =>
            show (match acceptEntries permissive (c :: cs) with
              | none => Except.error ()
              | some sorted =>
                let over := overlappingTypes n.parsedAvailableTypes sorted
                if over.isEmpty = true then Except.ok none
                else
                  let kept := keepHighestQ over
                  let ranked := sortJS (specCmp n.parsedAvailableTypes) kept
                  match ranked.head? with
                  | none => Except.ok none
                  | some w => Except.ok (n.availableMediaTypes.get? w.2))
              = Except.ok (some orig)
            rw [h2]
            simp only [hov]
            rw [if_neg (by simp)]
            simp only [hr, List.head?_cons]
            rw [horig]

/-- Witness for C4: `available = ["text/html", "application/json"]`, accept
`"text/*, application/json"` — the exact match wins over the wildcard at
equal weight. -/
theorem claim4_witness :
    ∃ qmax rest w orig,
      (∀ y ∈ overlappingTypes
          [⟨"text".toList, "html".toList, []⟩, ⟨"application".toList, "json".toList, []⟩]
          [(⟨"text".toList, ['*'], []⟩, 1000), (⟨"application".toList, "json".toList, []⟩, 1000)],
        y.1.2 ≤ qmax)
      ∧ (∀ z ∈ keepHighestQ (overlappingTypes
          [⟨"text".toList, "html".toList, []⟩, ⟨"application".toList, "json".toList, []⟩]
          [(⟨"text".toList, ['*'], []⟩, 1000), (⟨"application".toList, "json".toList, []⟩, 1000)]),
        z.1.2 = qmax)
      ∧ overlappingTypes
          [⟨"text".toList, "html".toList, []⟩, ⟨"application".toList, "json".toList, []⟩]
          [(⟨"text".toList, ['*'], []⟩, 1000), (⟨"application".toList, "json".toList, []⟩, 1000)]
        = keepHighestQ (overlappingTypes
          [⟨"text".toList, "html".toList, []⟩, ⟨"application".toList, "json".toList, []⟩]
          [(⟨"text".toList, ['*'], []⟩, 1000), (⟨"application".toList, "json".toList, []⟩, 1000)]) ++ rest
      ∧ (∀ y ∈ rest, y.1.2 < qmax)
      ∧ w ∈ keepHighestQ (overlappingTypes
          [⟨"text".toList, "html".toList, []⟩, ⟨"application".toList, "json".toList, []⟩]
          [(⟨"text".toList, ['*'], []⟩, 1000), (⟨"application".toList, "json".toList, []⟩, 1000)])
      ∧ (∀ x ∈ keepHighestQ (overlappingTypes
          [⟨"text".toList, "html".toList, []⟩, ⟨"application".toList, "json".toList, []⟩]
          [(⟨"text".toList, ['*'], []⟩, 1000), (⟨"application".toList, "json".toList, []⟩, 1000)]),
        specCmp [⟨"text".toList, "html".toList, []⟩, ⟨"application".toList, "json".toList, []⟩] w x ≤ 0)
      ∧ ["text/html".toList, "application/json".toList].get? w.2 = some orig
      ∧ negotiate ⟨["text/html".toList, "application/json".toList],
          [⟨"text".toList, "html".toList, []⟩, ⟨"application".toList, "json".toList, []⟩]⟩
          (some "text/*, application/json".toList) false = .ok (some orig) :=
  claim4_max_weight_prefix_and_tiebreak_winner
    ["text/html".toList, "application/json".toList]
    ⟨["text/html".toList, "application/json".toList],
      [⟨"text".toList, "html".toList, []⟩, ⟨"application".toList, "json".toList, []⟩]⟩
    "text/*, application/json".toList false
    [(⟨"text".toList, ['*'], []⟩, 1000), (⟨"application".toList, "json".toList, []⟩, 1000)]
    (by decide) (by decide) (by decide) (by decide)

/-! ## Claim C2: every tokenized accept range parses -/

/-- A bare `type/subtype` span: a nonempty token run, a slash, a nonempty
token run. -/
def TokOk (x : List Char) : Prop :=
  ∃ tR sR, x = tR ++ '/' :: sR ∧ TokRun tR ∧ TokRun sR

/-- Strict `parseMediaType` accepts the string. -/
def AccOk (x : List Char) : Prop := (parseMediaType x false).isSome = true

/-- What an emitted token of the strict tokenizer satisfies: with
`typesOnly` it is a bare `type/subtype` span, otherwise it re-parses
strictly. -/
def GoodTok (typesOnly : Bool) (t : List Char) : Prop :=
  if typesOnly then TokOk t else AccOk t

theorem pmtFold_snoc (p : Bool) (st : PSt) (u : List Char) (c : Char) :
    pmtFold p st (u ++ [c]) = pmtStep p (pmtFold p st u) (some c) := by
  rw [pmtFold_append]
  rfl

/-- Scanning a token run from the in-type state appends it to the pending
capture (any mode). -/
theorem pmtFold_typ_run (p : Bool) (r : List Char) (hr : ∀ c ∈ r, isToken c = true) :
    ∀ st : PSt, st.state = .typ →
      pmtFold p st r = { st with cur := st.cur ++ r } := by
  induction r with
  | nil =>
      intro st hst
      show st = _
      cases st
      simp
  | cons c rest ih =>
      intro st hst
      have hc : isToken c = true := hr c (by simp)
      have hstep : pmtStep p st (some c) = { st with cur := st.cur ++ [c] } := by
        simp only [pmtStep, hst]
        rw [if_pos (by simpa [isTokenO] using hc)]
        rfl
      show pmtFold p (pmtStep p st (some c)) rest = _
      rw [hstep]
      have hih := ih (fun d hd => hr d (by simp [hd])) { st with cur := st.cur ++ [c] } hst
      rw [hih]
      simp

/-- Scanning a token run from the in-subtype state appends it to the
pending capture (any mode). -/
theorem pmtFold_subtype_run (p : Bool) (r : List Char) (hr : ∀ c ∈ r, isToken c = true) :
    ∀ st : PSt, st.state = .subtype →
      pmtFold p st r = { st with cur := st.cur ++ r } := by
  induction r with
  | nil =>
      intro st hst
      show st = _
      cases st
      simp
  | cons c rest ih =>
      intro st hst
      have hc : isToken c = true := hr c (by simp)
      have hstep : pmtStep p st (some c) = { st with cur := st.cur ++ [c] } := by
        simp only [pmtStep, hst]
        rw [if_pos (by simpa [isTokenO] using hc)]
        rfl
      show pmtFold p (pmtStep p st (some c)) rest = _
      rw [hstep]
      have hih := ih (fun d hd => hr d (by simp [hd])) { st with cur := st.cur ++ [c] } hst
      rw [hih]
      simp

/-- The parser scan of a bare `type/subtype` span ends in the in-subtype
state with the type captured and the subtype pending (any mode). -/
theorem pmtFold_typeSlashSub (p : Bool) (tR sR : List Char)
    (ht : TokRun tR) (hs : TokRun sR) :
    pmtFold p pmtInit (tR ++ '/' :: sR)
      = ⟨.subtype, some tR, none, [], sR, []⟩ := by
  obtain ⟨t0, tRest, rfl⟩ : ∃ t0 tRest, tR = t0 :: tRest := by
    rcases tR with _ | ⟨t0, tRest⟩
    · exact absurd rfl ht.1
    · exact ⟨t0, tRest, rfl⟩
  obtain ⟨s0, sRest, rfl⟩ : ∃ s0 sRest, sR = s0 :: sRest := by
    rcases sR with _ | ⟨s0, sRest⟩
    · exact absurd rfl hs.1
    · exact ⟨s0, sRest, rfl⟩
  have ht0 : isToken t0 = true := ht.2 t0 (by simp)
  have hs0 : isToken s0 = true := hs.2 s0 (by simp)
  have step1 : pmtStep p pmtInit (some t0)
      = ⟨.typ, none, none, [], [t0], []⟩ := by
    simp only [pmtStep, pmtInit]
    rw [if_pos (by simpa [isTokenO] using ht0)]
    rfl
  show pmtFold p (pmtStep p pmtInit (some t0)) (tRest ++ '/' :: s0 :: sRest) = _
  rw [step1]
  rw [show tRest ++ '/' :: s0 :: sRest = tRest ++ ('/' :: s0 :: sRest) from rfl]
  rw [pmtFold_append]
  rw [pmtFold_typ_run p tRest (fun d hd => ht.2 d (by simp [hd])) _ rfl]
  show pmtFold p (pmtStep p _ (some '/')) (s0 :: sRest) = _
  have step2 : pmtStep p ⟨.typ, none, none, [], [t0] ++ tRest, []⟩ (some '/')
      = ⟨.subtypeStart, some (t0 :: tRest), none, [], t0 :: tRest, []⟩ := by
    simp only [pmtStep]
    rw [if_neg (by simp [isTokenO, isToken, TOKEN])]
    simp
  rw [step2]
  show pmtFold p (pmtStep p _ (some s0)) sRest = _
  have step3 : pmtStep p ⟨.subtypeStart, some (t0 :: tRest), none, [], t0 :: tRest, []⟩
      (some s0) = ⟨.subtype, some (t0 :: tRest), none, [], [s0], []⟩ := by
    simp only [pmtStep]
    rw [if_pos (by simpa [isTokenO] using hs0)]
    rfl
  rw [step3]
  rw [pmtFold_subtype_run p sRest (fun d hd => hs.2 d (by simp [hd])) _ rfl]
  rfl

/-- A bare `type/subtype` span parses in either mode. -/
theorem TokOk.parses {x : List Char} (h : TokOk x) (p : Bool) :
    (parseMediaType x p).isSome = true := by
  obtain ⟨tR, sR, rfl, ht, hs⟩ := h
  unfold parseMediaType pmtFinal
  rw [pmtFold_typeSlashSub p tR sR ht hs]
  have hstep : pmtStep p ⟨.subtype, some tR, none, [], sR, []⟩ none
      = ⟨.paramsStart, some tR, some sR, [], sR, []⟩ := by
    simp only [pmtStep]
    rw [if_neg (by simp [isTokenO])]
    simp
  rw [hstep]
  simp only []
  rw [if_pos ⟨ht.1, hs.1, Or.inr trivial⟩]
  rfl

/-- If the strict parser scan of `acc` ends in subtype-end, params-start or
in-value with nonempty captured type and subtype, then `acc` parses
strictly (the virtual end-of-input step lands in an accepting state). -/
theorem accOk_of_scan_state (acc : List Char)
    (hst : (pmtFold false pmtInit acc).state = .subtypeEnd
      ∨ (pmtFold false pmtInit acc).state = .paramsStart
      ∨ (pmtFold false pmtInit acc).state = .parameterValue)
    (hty : ∃ ty, (pmtFold false pmtInit acc).type? = some ty ∧ ty ≠ [])
    (hsub : ∃ sub, (pmtFold false pmtInit acc).subtype? = some sub ∧ sub ≠ []) :
    AccOk acc := by
  obtain ⟨ty, hty, htyne⟩ := hty
  obtain ⟨sub, hsub, hsubne⟩ := hsub
  unfold AccOk parseMediaType pmtFinal
  rcases hst with hst | hst | hst
  all_goals simp only [pmtStep, hst]
  · rw [if_pos (Or.inr trivial)]
    simp only [hty, hsub]
    rw [if_pos ⟨htyne, hsubne, Or.inr trivial⟩]
    rfl
  · rw [if_neg (by simp [isTokenO]), if_pos (Or.inr (Or.inr trivial))]
    simp only [hty, hsub]
    rw [if_pos ⟨htyne, hsubne, Or.inr hst⟩]
    rfl
  · rw [if_neg (by simp [isTokenO]), if_pos (Or.inr trivial)]
    simp only [hty, hsub]
    rw [if_pos ⟨htyne, hsubne, Or.inr trivial⟩]
    rfl

/-- The parser-side correspondence carried for an entry in progress: the
strict parser scan of the current span is in the matching state with
nonempty captured type and subtype; in the quoted-value state the parser's
pending capture determines the same previous-character test as the
tokenizer's. -/
def PCorr (s : TState) (acc : List Char) : Prop :=
  (pmtFold false pmtInit acc).state = s
  ∧ (∃ ty, (pmtFold false pmtInit acc).type? = some ty ∧ ty ≠ [])
  ∧ (∃ sub, (pmtFold false pmtInit acc).subtype? = some sub ∧ sub ≠ [])
  ∧ (s = .parameterQuoted →
      ((pmtFold false pmtInit acc).cur = [] → acc.getLast? = some '"')
      ∧ ((pmtFold false pmtInit acc).cur ≠ [] →
          (pmtFold false pmtInit acc).cur.getLast? = acc.getLast?))

theorem PCorr_trans {s : TState} (s' : TState) {acc : List Char} {c : Char}
    (h : PCorr s acc)
    (hQs : (pmtStep false (pmtFold false pmtInit acc) (some c)).state = s')
    (hQty : (pmtStep false (pmtFold false pmtInit acc) (some c)).type?
      = (pmtFold false pmtInit acc).type?)
    (hQsub : (pmtStep false (pmtFold false pmtInit acc) (some c)).subtype?
      = (pmtFold false pmtInit acc).subtype?)
    (hq : s' = .parameterQuoted →
      ((pmtStep false (pmtFold false pmtInit acc) (some c)).cur = []
          → (acc ++ [c]).getLast? = some '"')
      ∧ ((pmtStep false (pmtFold false pmtInit acc) (some c)).cur ≠ []
          → (pmtStep false (pmtFold false pmtInit acc) (some c)).cur.getLast?
            = (acc ++ [c]).getLast?)) :
    PCorr s' (acc ++ [c]) := by
  unfold PCorr
  rw [pmtFold_snoc]
  refine ⟨hQs, ?_, ?_, hq⟩
  · rw [hQty]
    exact h.2.1
  · rw [hQsub]
    exact h.2.2.1

/-- The invariant of the strict accept-header scan that guarantees every
emitted entry re-parses: emitted entries are good; in the pre-subtype
states the span is a (partial) `type/subtype` shape; once the subtype
completed, the marked prefixes `acc.take teLen` / `acc.take peLen` are a
bare span and a strictly-parsing string respectively, and the strict
parser's scan of the whole span corresponds to the tokenizer state. The
permissive-only parameter-name-end state is unreachable. -/
def CInv (tO : Bool) (st : ASt) : Prop :=
  (∀ t ∈ st.types, GoodTok tO t)
  ∧ match st.state with
    | .initial => True
    | .invalid => True
    | .typ => st.acc ≠ [] ∧ ∀ c ∈ st.acc, isToken c = true
    | .subtypeStart => ∃ tR, st.acc = tR ++ ['/'] ∧ TokRun tR
    | .subtype => TokOk st.acc
    | .parameterNameEnd => False
    | s => st.teLen ≤ st.acc.length ∧ st.peLen ≤ st.acc.length
        ∧ TokOk (st.acc.take st.teLen) ∧ AccOk (st.acc.take st.peLen)
        ∧ PCorr s st.acc

theorem goodTok_emit {acc : List Char} {te pe : Nat} (tO : Bool)
    (h1 : TokOk (acc.take te)) (h2 : AccOk (acc.take pe)) :
    GoodTok tO (acc.take (if tO then te else pe)) := by
  cases tO
  · simpa [GoodTok] using h2
  · simpa [GoodTok] using h1

theorem goodTypes_push {tO : Bool} {types : List (List Char)} {tok : List Char}
    (hne : ∀ t ∈ types, GoodTok tO t) (hg : GoodTok tO tok) :
    ∀ t ∈ types ++ [tok], GoodTok tO t := by
  intro t ht
  rcases List.mem_append.mp ht with ht | ht
  · exact hne t ht
  · simp only [List.mem_singleton] at ht
    exact ht ▸ hg

theorem isOWS_cases {c : Char} (h : isOWS c = true) : c = ' ' ∨ c = Char.ofNat 9 := by
  simpa [isOWS, OWS] using h

theorem ows_char_not_token {c : Char} (h : isOWS c = true) : isToken c = false := by
  rcases isOWS_cases h with rfl | rfl <;> decide

theorem ows_char_ne_semi {c : Char} (h : isOWS c = true) : c ≠ ';' := by
  rcases isOWS_cases h with rfl | rfl <;> decide

theorem cinv_step_invalid (tO : Bool) (acc : List Char) (te pe : Nat)
    (types : List (List Char)) (chr : Option Char)
    (h : CInv tO ⟨.invalid, acc, te, pe, types⟩) :
    CInv tO (tokStep tO false ⟨.invalid, acc, te, pe, types⟩ chr) := by
  obtain ⟨hg, -⟩ := h
  simp only [tokStep]
  by_cases hc : chr = some ','
  · rw [if_pos hc]
    exact ⟨hg, trivial⟩
  · rw [if_neg hc]
    exact ⟨hg, trivial⟩

theorem cinv_step_initial (tO : Bool) (acc : List Char) (te pe : Nat)
    (types : List (List Char)) (chr : Option Char)
    (h : CInv tO ⟨.initial, acc, te, pe, types⟩) :
    CInv tO (tokStep tO false ⟨.initial, acc, te, pe, types⟩ chr) := by
  obtain ⟨hg, -⟩ := h
  simp only [tokStep]
  by_cases hc1 : isOWSO chr = true ∨ chr = some ','
  · rw [if_pos hc1]
    exact ⟨hg, trivial⟩
  · rw [if_neg hc1]
    by_cases htok : isTokenO chr = true
    · rw [if_pos htok]
      obtain ⟨c, rfl, hc⟩ := isTokenO_elim htok
      exact ⟨hg, by simp, by simpa using hc⟩
    · rw [if_neg htok]
      exact ⟨hg, trivial⟩

theorem cinv_step_typ (tO : Bool) (acc : List Char) (te pe : Nat)
    (types : List (List Char)) (chr : Option Char)
    (h : CInv tO ⟨.typ, acc, te, pe, types⟩) :
    CInv tO (tokStep tO false ⟨.typ, acc, te, pe, types⟩ chr) := by
  obtain ⟨hg, hne, htok0⟩ := h
  simp only [tokStep]
  by_cases htok : isTokenO chr = true
  · rw [if_pos htok]
    obtain ⟨c, rfl, hc⟩ := isTokenO_elim htok
    refine ⟨hg, by simp, ?_⟩
    intro d hd
    simp only [List.mem_append, Option.toList_some, List.mem_singleton] at hd
    rcases hd with hd | rfl
    · exact htok0 d hd
    · exact hc
  · rw [if_neg htok]
    by_cases hsl : chr = some '/'
    · rw [if_pos hsl]
      subst hsl
      exact ⟨hg, acc, rfl, hne, htok0⟩
    · rw [if_neg hsl]
      by_cases hcm : chr = some ','
      · rw [if_pos hcm]
        exact ⟨hg, trivial⟩
      · rw [if_neg hcm]
        exact ⟨hg, trivial⟩

theorem cinv_step_subtypeStart (tO : Bool) (acc : List Char) (te pe : Nat)
    (types : List (List Char)) (chr : Option Char)
    (h : CInv tO ⟨.subtypeStart, acc, te, pe, types⟩) :
    CInv tO (tokStep tO false ⟨.subtypeStart, acc, te, pe, types⟩ chr) := by
  obtain ⟨hg, tR, hacc, htR⟩ := h
  simp only [tokStep]
  by_cases htok : isTokenO chr = true
  · rw [if_pos htok]
    obtain ⟨c, rfl, hc⟩ := isTokenO_elim htok
    have hacc2 : acc = tR ++ ['/'] := hacc
    refine ⟨hg, tR, [c], ?_, htR, TokRun.single hc⟩
    rw [hacc2]
    simp
  · rw [if_neg htok]
    rw [if_neg (by simp)]
    by_cases hcm : chr = some ','
    · rw [if_pos hcm]
      exact ⟨hg, trivial⟩
    · rw [if_neg hcm]
      exact ⟨hg, trivial⟩

theorem cinv_step_subtype (tO : Bool) (acc : List Char) (te pe : Nat)
    (types : List (List Char)) (chr : Option Char)
    (h : CInv tO ⟨.subtype, acc, te, pe, types⟩) :
    CInv tO (tokStep tO false ⟨.subtype, acc, te, pe, types⟩ chr) := by
  obtain ⟨hg, htok⟩ := h
  have htok2 : TokOk acc := htok
  simp only [tokStep]
  by_cases ht : isTokenO chr = true
  · rw [if_pos ht]
    obtain ⟨c, rfl, hc⟩ := isTokenO_elim ht
    obtain ⟨tR, sR, hacc, htR, hsR⟩ := htok2
    refine ⟨hg, tR, sR ++ [c], ?_, htR, TokRun.push hsR hc⟩
    rw [hacc]
    simp
  · rw [if_neg ht]
    by_cases hcm : chr = some ',' ∨ chr = none
    · rw [if_pos hcm]
      have hemit : GoodTok tO (acc.take (if tO then acc.length else acc.length)) := by
        rw [ite_self, List.take_length]
        cases tO
        · exact htok2.parses false
        · exact htok2
      exact ⟨goodTypes_push hg hemit, trivial⟩
    · rw [if_neg hcm]
      obtain ⟨tR, sR, hacc, htR, hsR⟩ := htok2
      have hscan : pmtFold false pmtInit acc = ⟨.subtype, some tR, none, [], sR, []⟩ := by
        rw [hacc]
        exact pmtFold_typeSlashSub false tR sR htR hsR
      by_cases hsc : chr = some ';'
      · rw [if_pos hsc]
        subst hsc
        dsimp only [CInv]
        simp only [Option.toList_some]
        refine ⟨hg, by simp, by simp, ?_, ?_, ?_⟩
        · rw [List.take_left]
          exact ⟨tR, sR, hacc, htR, hsR⟩
        · rw [List.take_left]
          exact TokOk.parses ⟨tR, sR, hacc, htR, hsR⟩ false
        · have hstep : pmtStep false (pmtFold false pmtInit acc) (some ';')
              = ⟨.paramsStart, some tR, some sR, [], sR, []⟩ := by
            rw [hscan]
            simp only [pmtStep]
            rw [if_neg ht, if_pos (Or.inl trivial)]
          unfold PCorr
          rw [pmtFold_snoc, hstep]
          exact ⟨rfl, ⟨tR, rfl, htR.1⟩, ⟨sR, rfl, hsR.1⟩, fun hq => nomatch hq⟩
      · rw [if_neg hsc]
        by_cases hw : isOWSO chr = true
        · rw [if_pos hw]
          obtain ⟨c, rfl, hcw⟩ := isOWSO_elim hw
          dsimp only [CInv]
          simp only [Option.toList_some]
          refine ⟨hg, by simp, by simp, ?_, ?_, ?_⟩
          · rw [List.take_left]
            exact ⟨tR, sR, hacc, htR, hsR⟩
          · rw [List.take_left]
            exact TokOk.parses ⟨tR, sR, hacc, htR, hsR⟩ false
          · have hstep : pmtStep false (pmtFold false pmtInit acc) (some c)
                = ⟨.subtypeEnd, some tR, some sR, [], sR, []⟩ := by
              rw [hscan]
              simp only [pmtStep]
              rw [if_neg ht,
                if_neg (by simp [ows_char_ne_semi hcw]),
                if_pos (by simpa [isOWSO] using hcw)]
            unfold PCorr
            rw [pmtFold_snoc, hstep]
            exact ⟨rfl, ⟨tR, rfl, htR.1⟩, ⟨sR, rfl, hsR.1⟩, fun hq => nomatch hq⟩
        · rw [if_neg hw]
          exact ⟨hg, trivial⟩

theorem cinv_step_subtypeEnd (tO : Bool) (acc : List Char) (te pe : Nat)
    (types : List (List Char)) (chr : Option Char)
    (h : CInv tO ⟨.subtypeEnd, acc, te, pe, types⟩) :
    CInv tO (tokStep tO false ⟨.subtypeEnd, acc, te, pe, types⟩ chr) := by
  obtain ⟨hg, hte, hpe, hTok, hAcc, hP⟩ := h
  have hte2 : te ≤ acc.length := hte
  have hpe2 : pe ≤ acc.length := hpe
  have hTok2 : TokOk (acc.take te) := hTok
  have hAcc2 : AccOk (acc.take pe) := hAcc
  have hP2 : PCorr .subtypeEnd acc := hP
  simp only [tokStep]
  by_cases hcm : chr = some ',' ∨ chr = none
  · rw [if_pos hcm]
    exact ⟨goodTypes_push hg (goodTok_emit tO hTok2 hAcc2), trivial⟩
  · rw [if_neg hcm]
    by_cases hsc : chr = some ';'
    · rw [if_pos hsc]
      subst hsc
      dsimp only [CInv]
      simp only [Option.toList_some]
      have hstep : pmtStep false (pmtFold false pmtInit acc) (some ';')
          = { pmtFold false pmtInit acc with state := .paramsStart } := by
        simp only [pmtStep, hP2.1]
        rw [if_pos (Or.inl trivial)]
      refine ⟨hg, by simp; omega, by simp; omega, ?_, ?_, ?_⟩
      · rw [List.take_append_of_le_length hte2]
        exact hTok2
      · rw [List.take_append_of_le_length hpe2]
        exact hAcc2
      · exact PCorr_trans .paramsStart hP2 (by rw [hstep]) (by rw [hstep]) (by rw [hstep])
          (fun hq => nomatch hq)
    · rw [if_neg hsc]
      by_cases hw : isOWSO chr = true
      · rw [if_pos hw]
        obtain ⟨c, rfl, hcw⟩ := isOWSO_elim hw
        dsimp only [CInv]
        simp only [Option.toList_some]
        have hstep : pmtStep false (pmtFold false pmtInit acc) (some c)
            = pmtFold false pmtInit acc := by
          simp only [pmtStep, hP2.1]
          rw [if_neg (by simp [ows_char_ne_semi hcw]),
            if_pos (by simpa [isOWSO] using hcw)]
        refine ⟨hg, by simp; omega, by simp; omega, ?_, ?_, ?_⟩
        · rw [List.take_append_of_le_length hte2]
          exact hTok2
        · rw [List.take_append_of_le_length hpe2]
          exact hAcc2
        · exact PCorr_trans .subtypeEnd hP2 (by rw [hstep]; exact hP2.1) (by rw [hstep])
            (by rw [hstep]) (fun hq => nomatch hq)
      · rw [if_neg hw]
        exact ⟨hg, trivial⟩

theorem cinv_step_paramsStart (tO : Bool) (acc : List Char) (te pe : Nat)
    (types : List (List Char)) (chr : Option Char)
    (h : CInv tO ⟨.paramsStart, acc, te, pe, types⟩) :
    CInv tO (tokStep tO false ⟨.paramsStart, acc, te, pe, types⟩ chr) := by
  obtain ⟨hg, hte, hpe, hTok, hAcc, hP⟩ := h
  have hte2 : te ≤ acc.length := hte
  have hpe2 : pe ≤ acc.length := hpe
  have hTok2 : TokOk (acc.take te) := hTok
  have hAcc2 : AccOk (acc.take pe) := hAcc
  have hP2 : PCorr .paramsStart acc := hP
  simp only [tokStep]
  by_cases ht : isTokenO chr = true
  · rw [if_pos ht]
    obtain ⟨c, rfl, hc⟩ := isTokenO_elim ht
    dsimp only [CInv]
    simp only [Option.toList_some]
    have hstep : pmtStep false (pmtFold false pmtInit acc) (some c)
        = { pmtFold false pmtInit acc with state := .parameterName, cur := [c] } := by
      simp only [pmtStep, hP2.1]
      rw [if_pos ht]
      rfl
    refine ⟨hg, by simp; omega, by simp; omega, ?_, ?_, ?_⟩
    · rw [List.take_append_of_le_length hte2]
      exact hTok2
    · rw [List.take_append_of_le_length hpe2]
      exact hAcc2
    · exact PCorr_trans .parameterName hP2 (by rw [hstep]) (by rw [hstep]) (by rw [hstep])
        (fun hq => nomatch hq)
  · rw [if_neg ht]
    by_cases hwsc : isOWSO chr = true ∨ chr = some ';'
    · rw [if_pos hwsc]
      dsimp only [CInv]
      have hstep : pmtStep false (pmtFold false pmtInit acc) chr
          = pmtFold false pmtInit acc := by
        simp only [pmtStep, hP2.1]
        rw [if_neg ht, if_pos (Or.elim hwsc Or.inl (fun hp => Or.inr (Or.inl hp)))]
      obtain ⟨c, rfl⟩ : ∃ c, chr = some c := by
        rcases hwsc with hw | rfl
        · obtain ⟨c, rfl, -⟩ := isOWSO_elim hw
          exact ⟨c, rfl⟩
        · exact ⟨';', rfl⟩
      simp only [Option.toList_some]
      refine ⟨hg, by simp; omega, by simp; omega, ?_, ?_, ?_⟩
      · rw [List.take_append_of_le_length hte2]
        exact hTok2
      · rw [List.take_append_of_le_length hpe2]
        exact hAcc2
      · exact PCorr_trans .paramsStart hP2 (by rw [hstep]; exact hP2.1) (by rw [hstep])
          (by rw [hstep]) (fun hq => nomatch hq)
    · rw [if_neg hwsc]
      by_cases hcm : chr = some ',' ∨ chr = none
      · rw [if_pos hcm]
        exact ⟨goodTypes_push hg (goodTok_emit tO hTok2 hAcc2), trivial⟩
      · rw [if_neg hcm]
        exact ⟨hg, trivial⟩

theorem cinv_step_parameterName (tO : Bool) (acc : List Char) (te pe : Nat)
    (types : List (List Char)) (chr : Option Char)
    (h : CInv tO ⟨.parameterName, acc, te, pe, types⟩) :
    CInv tO (tokStep tO false ⟨.parameterName, acc, te, pe, types⟩ chr) := by
  obtain ⟨hg, hte, hpe, hTok, hAcc, hP⟩ := h
  have hte2 : te ≤ acc.length := hte
  have hpe2 : pe ≤ acc.length := hpe
  have hTok2 : TokOk (acc.take te) := hTok
  have hAcc2 : AccOk (acc.take pe) := hAcc
  have hP2 : PCorr .parameterName acc := hP
  simp only [tokStep]
  by_cases ht : isTokenO chr = true
  · rw [if_pos ht]
    obtain ⟨c, rfl, hc⟩ := isTokenO_elim ht
    dsimp only [CInv]
    simp only [Option.toList_some]
    have hstep : pmtStep false (pmtFold false pmtInit acc) (some c)
        = { pmtFold false pmtInit acc with
            cur := (pmtFold false pmtInit acc).cur ++ [c] } := by
      simp only [pmtStep, hP2.1]
      rw [if_pos ht]
      rfl
    refine ⟨hg, by simp; omega, by simp; omega, ?_, ?_, ?_⟩
    · rw [List.take_append_of_le_length hte2]
      exact hTok2
    · rw [List.take_append_of_le_length hpe2]
      exact hAcc2
    · exact PCorr_trans .parameterName hP2 (by rw [hstep]; exact hP2.1) (by rw [hstep])
        (by rw [hstep]) (fun hq => nomatch hq)
  · rw [if_neg ht]
    by_cases heq : chr = some '='
    · rw [if_pos heq]
      subst heq
      dsimp only [CInv]
      simp only [Option.toList_some]
      have hstep : pmtStep false (pmtFold false pmtInit acc) (some '=')
          = { pmtFold false pmtInit acc with
              state := .parameterValueStart, t := (pmtFold false pmtInit acc).cur } := by
        simp only [pmtStep, hP2.1]
        rw [if_neg ht, if_pos trivial]
      refine ⟨hg, by simp; omega, by simp; omega, ?_, ?_, ?_⟩
      · rw [List.take_append_of_le_length hte2]
        exact hTok2
      · rw [List.take_append_of_le_length hpe2]
        exact hAcc2
      · exact PCorr_trans .parameterValueStart hP2 (by rw [hstep]) (by rw [hstep])
          (by rw [hstep]) (fun hq => nomatch hq)
    · rw [if_neg heq]
      rw [if_neg (by simp)]
      rw [if_neg (by simp)]
      rw [if_neg (by simp)]
      exact ⟨hg, trivial⟩

theorem cinv_step_parameterNameEnd (tO : Bool) (acc : List Char) (te pe : Nat)
    (types : List (List Char)) (chr : Option Char)
    (h : CInv tO ⟨.parameterNameEnd, acc, te, pe, types⟩) :
    CInv tO (tokStep tO false ⟨.parameterNameEnd, acc, te, pe, types⟩ chr) := by
  obtain ⟨-, hf⟩ := h
  exact absurd hf id

theorem cinv_step_parameterValueStart (tO : Bool) (acc : List Char) (te pe : Nat)
    (types : List (List Char)) (chr : Option Char)
    (h : CInv tO ⟨.parameterValueStart, acc, te, pe, types⟩) :
    CInv tO (tokStep tO false ⟨.parameterValueStart, acc, te, pe, types⟩ chr) := by
  obtain ⟨hg, hte, hpe, hTok, hAcc, hP⟩ := h
  have hte2 : te ≤ acc.length := hte
  have hpe2 : pe ≤ acc.length := hpe
  have hTok2 : TokOk (acc.take te) := hTok
  have hAcc2 : AccOk (acc.take pe) := hAcc
  have hP2 : PCorr .parameterValueStart acc := hP
  simp only [tokStep]
  by_cases ht : isTokenO chr = true
  · rw [if_pos ht]
    obtain ⟨c, rfl, hc⟩ := isTokenO_elim ht
    dsimp only [CInv]
    simp only [Option.toList_some]
    have hstep : pmtStep false (pmtFold false pmtInit acc) (some c)
        = { pmtFold false pmtInit acc with state := .parameterValue, cur := [c] } := by
      simp only [pmtStep, hP2.1]
      rw [if_pos ht]
      rfl
    refine ⟨hg, by simp; omega, by simp; omega, ?_, ?_, ?_⟩
    · rw [List.take_append_of_le_length hte2]
      exact hTok2
    · rw [List.take_append_of_le_length hpe2]
      exact hAcc2
    · exact PCorr_trans .parameterValue hP2 (by rw [hstep]) (by rw [hstep])
        (by rw [hstep]) (fun hq => nomatch hq)
  · rw [if_neg ht]
    by_cases hqc : chr = some '"'
    · rw [if_pos hqc]
      subst hqc
      dsimp only [CInv]
      simp only [Option.toList_some]
      have hstep : pmtStep false (pmtFold false pmtInit acc) (some '"')
          = { pmtFold false pmtInit acc with state := .parameterQuoted, cur := [] } := by
        simp only [pmtStep, hP2.1]
        rw [if_neg ht, if_pos trivial]
      refine ⟨hg, by simp; omega, by simp; omega, ?_, ?_, ?_⟩
      · rw [List.take_append_of_le_length hte2]
        exact hTok2
      · rw [List.take_append_of_le_length hpe2]
        exact hAcc2
      · refine PCorr_trans .parameterQuoted hP2 (by rw [hstep]) (by rw [hstep])
          (by rw [hstep]) ?_
        intro _
        rw [hstep]
        refine ⟨fun _ => ?_, fun hne => absurd rfl hne⟩
        exact List.getLast?_concat acc
    · rw [if_neg hqc]
      rw [if_neg (by simp)]
      rw [if_neg (by simp)]
      rw [if_neg (by simp)]
      exact ⟨hg, trivial⟩

theorem cinv_step_parameterValue (tO : Bool) (acc : List Char) (te pe : Nat)
    (types : List (List Char)) (chr : Option Char)
    (h : CInv tO ⟨.parameterValue, acc, te, pe, types⟩) :
    CInv tO (tokStep tO false ⟨.parameterValue, acc, te, pe, types⟩ chr) := by
  obtain ⟨hg, hte, hpe, hTok, hAcc, hP⟩ := h
  have hte2 : te ≤ acc.length := hte
  have hpe2 : pe ≤ acc.length := hpe
  have hTok2 : TokOk (acc.take te) := hTok
  have hAcc2 : AccOk (acc.take pe) := hAcc
  have hP2 : PCorr .parameterValue acc := hP
  have hAA : AccOk acc :=
    accOk_of_scan_state acc (Or.inr (Or.inr hP2.1)) hP2.2.1 hP2.2.2.1
  simp only [tokStep]
  by_cases ht : isTokenO chr = true
  · rw [if_pos ht]
    obtain ⟨c, rfl, hc⟩ := isTokenO_elim ht
    dsimp only [CInv]
    simp only [Option.toList_some]
    have hstep : pmtStep false (pmtFold false pmtInit acc) (some c)
        = { pmtFold false pmtInit acc with
            cur := (pmtFold false pmtInit acc).cur ++ [c] } := by
      simp only [pmtStep, hP2.1]
      rw [if_pos ht]
      rfl
    refine ⟨hg, by simp; omega, by simp; omega, ?_, ?_, ?_⟩
    · rw [List.take_append_of_le_length hte2]
      exact hTok2
    · rw [List.take_append_of_le_length hpe2]
      exact hAcc2
    · exact PCorr_trans .parameterValue hP2 (by rw [hstep]; exact hP2.1) (by rw [hstep])
        (by rw [hstep]) (fun hq => nomatch hq)
  · rw [if_neg ht]
    by_cases hsc : chr = some ';'
    · rw [if_pos hsc]
      subst hsc
      dsimp only [CInv]
      simp only [Option.toList_some]
      have hstep : pmtStep false (pmtFold false pmtInit acc) (some ';')
          = { pmtFold false pmtInit acc with
              state := .paramsStart
              params := (pmtFold false pmtInit acc).params
                ++ [((pmtFold false pmtInit acc).t, (pmtFold false pmtInit acc).cur)] } := by
        simp only [pmtStep, hP2.1]
        rw [if_neg ht, if_pos (Or.inl trivial)]
      refine ⟨hg, by simp; omega, by simp, ?_, ?_, ?_⟩
      · rw [List.take_append_of_le_length hte2]
        exact hTok2
      · rw [List.take_left]
        exact hAA
      · exact PCorr_trans .paramsStart hP2 (by rw [hstep]) (by rw [hstep])
          (by rw [hstep]) (fun hq => nomatch hq)
    · rw [if_neg hsc]
      by_cases hcm : chr = some ',' ∨ chr = none
      · rw [if_pos hcm]
        have hemit : GoodTok tO (acc.take (if tO then te else acc.length)) :=
          goodTok_emit tO hTok2 (by rw [List.take_length]; exact hAA)
        exact ⟨goodTypes_push hg hemit, trivial⟩
      · rw [if_neg hcm]
        by_cases hw : isOWSO chr = true
        · rw [if_pos hw]
          obtain ⟨c, rfl, hcw⟩ := isOWSO_elim hw
          dsimp only [CInv]
          simp only [Option.toList_some]
          have hstep : pmtStep false (pmtFold false pmtInit acc) (some c)
              = { pmtFold false pmtInit acc with
                  state := .subtypeEnd
                  params := (pmtFold false pmtInit acc).params
                    ++ [((pmtFold false pmtInit acc).t, (pmtFold false pmtInit acc).cur)] } := by
            simp only [pmtStep, hP2.1]
            rw [if_neg ht, if_neg (by simp [ows_char_ne_semi hcw]),
              if_pos (by simpa [isOWSO] using hcw)]
          refine ⟨hg, by simp; omega, by simp, ?_, ?_, ?_⟩
          · rw [List.take_append_of_le_length hte2]
            exact hTok2
          · rw [List.take_left]
            exact hAA
          · exact PCorr_trans .subtypeEnd hP2 (by rw [hstep]) (by rw [hstep])
              (by rw [hstep]) (fun hq => nomatch hq)
        · rw [if_neg hw]
          exact ⟨hg, trivial⟩

theorem cinv_step_parameterQuoted (tO : Bool) (acc : List Char) (te pe : Nat)
    (types : List (List Char)) (chr : Option Char)
    (h : CInv tO ⟨.parameterQuoted, acc, te, pe, types⟩) :
    CInv tO (tokStep tO false ⟨.parameterQuoted, acc, te, pe, types⟩ chr) := by
  obtain ⟨hg, hte, hpe, hTok, hAcc, hP⟩ := h
  have hte2 : te ≤ acc.length := hte
  have hpe2 : pe ≤ acc.length := hpe
  have hTok2 : TokOk (acc.take te) := hTok
  have hAcc2 : AccOk (acc.take pe) := hAcc
  have hP2 : PCorr .parameterQuoted acc := hP
  have hq0 := hP2.2.2.2 rfl
  simp only [tokStep]
  rw [if_neg (by simp)]
  by_cases hqc : chr = some '"'
  · subst hqc
    by_cases hl : acc.getLast? = some '\\'
    · rw [if_pos (Or.inr hl)]
      dsimp only [CInv]
      simp only [Option.toList_some]
      have hcur_ne : (pmtFold false pmtInit acc).cur ≠ [] := by
        intro hnil
        have hq1 := hq0.1 hnil
        rw [hq1] at hl
        exact absurd hl (by decide)
      have hcl : (pmtFold false pmtInit acc).cur.getLast? = some '\\' := by
        rw [hq0.2 hcur_ne]
        exact hl
      have hstep : pmtStep false (pmtFold false pmtInit acc) (some '"')
          = { pmtFold false pmtInit acc with
              cur := (pmtFold false pmtInit acc).cur ++ ['"'] } := by
        simp only [pmtStep, hP2.1]
        rw [if_pos ⟨by simp, Or.inr hcl⟩]
        rfl
      refine ⟨hg, by simp; omega, by simp; omega, ?_, ?_, ?_⟩
      · rw [List.take_append_of_le_length hte2]
        exact hTok2
      · rw [List.take_append_of_le_length hpe2]
        exact hAcc2
      · refine PCorr_trans .parameterQuoted hP2 (by rw [hstep]; exact hP2.1) (by rw [hstep])
          (by rw [hstep]) ?_
        intro _
        rw [hstep]
        refine ⟨fun hnil => absurd hnil (by simp), fun _ => ?_⟩
        rw [List.getLast?_concat, List.getLast?_concat]
    · rw [if_neg (by simp [hl])]
      dsimp only [CInv]
      simp only [Option.toList_some]
      have hcur : (pmtFold false pmtInit acc).cur.getLast? ≠ some '\\' := by
        by_cases hnil : (pmtFold false pmtInit acc).cur = []
        · rw [hnil]
          simp
        · rw [hq0.2 hnil]
          exact hl
      have hstep : pmtStep false (pmtFold false pmtInit acc) (some '"')
          = { pmtFold false pmtInit acc with
              state := .subtypeEnd
              params := (pmtFold false pmtInit acc).params
                ++ [((pmtFold false pmtInit acc).t,
                     unescape (pmtFold false pmtInit acc).cur)] } := by
        simp only [pmtStep, hP2.1]
        rw [if_neg (by simp [hcur])]
      have hAq : AccOk (acc ++ ['"']) := by
        apply accOk_of_scan_state
        · left
          rw [pmtFold_snoc, hstep]
        · rw [pmtFold_snoc, hstep]
          exact hP2.2.1
        · rw [pmtFold_snoc, hstep]
          exact hP2.2.2.1
      refine ⟨hg, by simp; omega, by simp, ?_, ?_, ?_⟩
      · rw [List.take_append_of_le_length hte2]
        exact hTok2
      · rw [show acc.length + 1 = (acc ++ ['"']).length by simp, List.take_length]
        exact hAq
      · exact PCorr_trans .subtypeEnd hP2 (by rw [hstep]) (by rw [hstep])
          (by rw [hstep]) (fun hq => nomatch hq)
  · rw [if_pos (Or.inl hqc)]
    cases chr with
    | none =>
        dsimp only [CInv]
        simp only [Option.toList_none, List.append_nil]
        exact ⟨hg, hte2, hpe2, hTok2, hAcc2, hP2⟩
    | some c =>
        dsimp only [CInv]
        simp only [Option.toList_some]
        have hstep : pmtStep false (pmtFold false pmtInit acc) (some c)
            = { pmtFold false pmtInit acc with
                cur := (pmtFold false pmtInit acc).cur ++ [c] } := by
          simp only [pmtStep, hP2.1]
          rw [if_pos ⟨by simp, Or.inl hqc⟩]
          rfl
        refine ⟨hg, by simp; omega, by simp; omega, ?_, ?_, ?_⟩
        · rw [List.take_append_of_le_length hte2]
          exact hTok2
        · rw [List.take_append_of_le_length hpe2]
          exact hAcc2
        · refine PCorr_trans .parameterQuoted hP2 (by rw [hstep]; exact hP2.1) (by rw [hstep])
            (by rw [hstep]) ?_
          intro _
          rw [hstep]
          refine ⟨fun hnil => absurd hnil (by simp), fun _ => ?_⟩
          rw [List.getLast?_concat, List.getLast?_concat]

theorem tokStep_cinv (tO : Bool) (st : ASt) (chr : Option Char) (h : CInv tO st) :
    CInv tO (tokStep tO false st chr) := by
  obtain ⟨state, acc, te, pe, types⟩ := st
  cases state with
  | invalid => exact cinv_step_invalid tO acc te pe types chr h
  | initial => exact cinv_step_initial tO acc te pe types chr h
  | typ => exact cinv_step_typ tO acc te pe types chr h
  | subtypeStart => exact cinv_step_subtypeStart tO acc te pe types chr h
  | subtype => exact cinv_step_subtype tO acc te pe types chr h
  | subtypeEnd => exact cinv_step_subtypeEnd tO acc te pe types chr h
  | paramsStart => exact cinv_step_paramsStart tO acc te pe types chr h
  | parameterName => exact cinv_step_parameterName tO acc te pe types chr h
  | parameterNameEnd => exact cinv_step_parameterNameEnd tO acc te pe types chr h
  | parameterValueStart => exact cinv_step_parameterValueStart tO acc te pe types chr h
  | parameterValue => exact cinv_step_parameterValue tO acc te pe types chr h
  | parameterQuoted => exact cinv_step_parameterQuoted tO acc te pe types chr h

theorem tokFold_cinv (tO : Bool) (l : List Char) :
    ∀ st : ASt, CInv tO st → CInv tO (tokFold tO false st l) := by
  induction l with
  | nil =>
      intro st h
      exact h
  | cons c rest ih =>
      intro st h
      exact ih _ (tokStep_cinv tO st (some c) h)

theorem tokInit_cinv (tO : Bool) : CInv tO tokInit :=
  ⟨fun t ht => absurd ht (by simp [tokInit]), trivial⟩

/-- Every entry emitted by the strict tokenizer re-parses: a bare
`type/subtype` span under `typesOnly`, a strictly-parsing string
otherwise. -/
theorem parseAcceptHeader_good (tO : Bool) (accept : List Char) :
    ∀ t ∈ parseAcceptHeader accept tO false, GoodTok tO t := by
  have h := tokStep_cinv tO (tokFold tO false tokInit accept) none
    (tokFold_cinv tO accept tokInit (tokInit_cinv tO))
  exact h.1

theorem mapOrThrow_ne_none {α β : Type} (f : α → Option β) (l : List α)
    (h : ∀ a ∈ l, f a ≠ none) : mapOrThrow f l ≠ none := by
  induction l with
  | nil => simp [mapOrThrow]
  | cons a rest ih =>
      unfold mapOrThrow
      cases hfa : f a with
      | none => exact absurd hfa (h a (by simp))
      | some b =>
          dsimp only
          simp only [ne_eq, Option.map_eq_none']
          exact ih (fun x hx => h x (by simp [hx]))

theorem mkAcceptEntry_ne_none {p : Bool} {t : List Char}
    (hs : (parseMediaType t p).isSome = true) : mkAcceptEntry p t ≠ none := by
  obtain ⟨m, hm⟩ := Option.isSome_iff_exists.mp hs
  unfold mkAcceptEntry
  rw [hm]
  dsimp only
  by_cases hq : findQ (normaliseMediaType m) = 0
  · rw [if_pos hq]
    simp
  · rw [if_neg hq]
    simp

theorem negotiate_tail_ok (n : Negotiator) (sorted : List (MediaType × Nat)) :
    (let over := overlappingTypes n.parsedAvailableTypes sorted
     if over.isEmpty then (.ok none : Except Unit (Option (List Char)))
     else
       let kept := keepHighestQ over
       let ranked := sortJS (specCmp n.parsedAvailableTypes) kept
       match ranked.head? with
       | none => .ok none
       | some w => .ok (n.availableMediaTypes.get? w.2)) ≠ .error () := by
  dsimp only
  by_cases hov : (overlappingTypes n.parsedAvailableTypes sorted).isEmpty
  · rw [if_pos hov]
    simp
  · rw [if_neg hov]
    cases (sortJS (specCmp n.parsedAvailableTypes)
        (keepHighestQ (overlappingTypes n.parsedAvailableTypes sorted))).head? with
    | none => simp
    | some w => simp

/-! ## Claim C2 -/

/-- C2: for every negotiator state, accept header and permissive flag,
`negotiate` never raises (never returns the embedded exception value): the
strict tokenizer only ever emits media-range tokens whose media-type parse
succeeds under the corresponding mode, so no `MediaTypeParsingError` arises
from an accept-range token, and negotiation always completes over the
remaining ranges. -/
theorem claim2_negotiate_never_raises (n : Negotiator) (accept : Option (List Char))
    (permissive : Bool) :
    negotiate n accept permissive ≠ .error () := by
  unfold negotiate
  by_cases hav : n.availableMediaTypes.isEmpty
  · rw [if_pos hav]
    simp
  · rw [if_neg hav]
    cases accept with
    | none => simp
    | some acc =>
        cases acc with
        | nil => simp
        | cons c rest =>
            have hmt : mapOrThrow (mkAcceptEntry permissive)
                (parseAcceptHeader (c :: rest) permissive false) ≠ none := by
              apply mapOrThrow_ne_none
              intro t ht
              apply mkAcceptEntry_ne_none
              have hg := parseAcceptHeader_good permissive (c :: rest) t ht
              cases permissive
              · exact hg
              · exact TokOk.parses hg true
            cases hmc : mapOrThrow (mkAcceptEntry permissive)
                (parseAcceptHeader (c :: rest) permissive false) with
            | none => exact absurd hmc hmt
            | some l =>
                have hae : acceptEntries permissive (c :: rest)
                    = some (sortJS (fun a b => ((b.2 : Int)) - (a.2 : Int))
                        (l.filterMap id)) := by
                  unfold acceptEntries
                  rw [hmc]
                  rfl
                dsimp only
                rw [hae]
                exact negotiate_tail_ok n _

end MediaTypeNegotiator
